import Mathlib

set_option linter.unusedVariables false
set_option maxRecDepth 8192

deriving instance DecidableEq for Except

namespace HelpScout

/-! Shallow embedding of the Help Scout MCP server's search-aggregation and
content-normalization core (src/tools/index.ts, src/utils/html-stripper.ts).
Conversations carry their identity and the parsed epoch value of their
ISO-8601 `createdAt` string; every other record field is irrelevant to the
claims and omitted. -/

/-- A conversation record as seen by the merge loop: identity is `id`,
ordering key is the parsed `createdAt` timestamp
(`new Date(c.createdAt).getTime()` on valid dates). -/
structure Conversation where
  id : Nat
  createdAt : Nat
  deriving DecidableEq

/-- Error info recorded for a failed status branch, mirroring the
`failedStatuses` entries built in `searchConversations`. -/
structure BranchFailure where
  status : String
  message : String
  code : String
  deriving DecidableEq

/-- Reason a branch promise was rejected: either a recognized structured API
error carrying a classification code and message, or some other thrown value.
Modelled from the spec: the transport collaborator raises a classified error
(unauthorized / invalid-input / rate-limited / upstream-failure / not-found /
unclassified); the `isApiError` type guard itself lives in
utils/mcp-errors.ts, outside the analyzed sources, and is modelled by the
constructor distinction. -/
inductive SettleReason where
  | apiError (code message : String)
  | other (message : String)
  deriving DecidableEq

/-- The `isApiError` type guard: recognizes structured API errors. -/
def isApiError : SettleReason → Bool
  | .apiError _ _ => true
  | .other _ => false

/-- Message extraction: `isApiError(reason) ? reason.message : String(reason)`. -/
def SettleReason.messageOf : SettleReason → String
  | .apiError _ m => m
  | .other m => m

/-- Code extraction: `isApiError(reason) ? reason.code : 'UNKNOWN'`. -/
def SettleReason.codeOf : SettleReason → String
  | .apiError c _ => c
  | .other _ => "UNKNOWN"

/-- The slice of a paginated Help Scout response that the merge loop reads:
`page?.totalElements` and `_embedded?.conversations || []`. -/
structure BranchPage where
  totalElements : Option Nat
  conversations : List Conversation
  deriving DecidableEq

/-- One settled branch outcome, as produced by `Promise.allSettled`. -/
inductive Settled (α : Type) where
  | fulfilled (value : α)
  | rejected (reason : SettleReason)
  deriving DecidableEq

/-- Mutable state threaded through the merge loop of `searchConversations`
(seenIds set, merged conversations, failed statuses, running totals). -/
structure MergeState where
  seenIds : List Nat
  conversations : List Conversation
  failedStatuses : List BranchFailure
  totalAvailable : Nat
  totalByStatus : List (String × Nat)
  deriving DecidableEq

/-- Initial merge state: empty set, empty accumulators, zero totals. -/
def MergeState.init : MergeState := ⟨[], [], [], 0, []⟩

/-- `if (!seenIds.has(conv.id)) { seenIds.add(conv.id); conversations.push(conv); }`.
The JS `Set` is modelled by a list observed only through membership. -/
def pushIfUnseen (st : MergeState) (c : Conversation) : MergeState :=
  if c.id ∈ st.seenIds then st
  else { st with seenIds := c.id :: st.seenIds,
                 conversations := st.conversations ++ [c] }

/-- Fulfilled-branch processing: record the branch's API-reported total
(`page?.totalElements || 0`) and push each unseen conversation in page order. -/
def processFulfilled (st : MergeState) (status : String) (page : BranchPage) : MergeState :=
  let statusTotal := page.totalElements.getD 0
  page.conversations.foldl pushIfUnseen
    { st with totalByStatus := st.totalByStatus ++ [(status, statusTotal)],
              totalAvailable := st.totalAvailable + statusTotal }

/-- Rejected-branch processing: non-API errors rethrow; UNAUTHORIZED and
INVALID_INPUT API errors rethrow; every other API error is recorded in
`failedStatuses` with status, message and code. -/
def processRejected (st : MergeState) (status : String) (reason : SettleReason) :
    Except SettleReason MergeState :=
  if !isApiError reason then .error reason
  else if reason.codeOf == "UNAUTHORIZED" || reason.codeOf == "INVALID_INPUT" then
    .error reason
  else .ok { st with failedStatuses :=
    st.failedStatuses ++ [⟨status, reason.messageOf, reason.codeOf⟩] }

/-- The merge loop over the settled branch results, in branch order. -/
def processSettled : MergeState → List (String × Settled BranchPage) →
    Except SettleReason MergeState
  | st, [] => .ok st
  | st, (status, .fulfilled page) :: rest =>
    processSettled (processFulfilled st status page) rest
  | st, (status, .rejected reason) :: rest =>
    match processRejected st status reason with
    | .error e => .error e
    | .ok st' => processSettled st' rest

/-- Stable insertion into a list sorted by `createdAt` descending: the new
element goes in front of the first element whose key is less than or equal to
its own, so among equal keys the element inserted first (earlier in the input)
stays first. -/
def insertDescend (c : Conversation) : List Conversation → List Conversation
  | [] => [c]
  | d :: ds => if d.createdAt ≤ c.createdAt then c :: d :: ds
               else d :: insertDescend c ds

/-- `conversations.sort((a, b) => b.createdAt - a.createdAt)`: ES2019
`Array.prototype.sort` is stable, and a stable sort for a total comparison is
unique, so it equals stable insertion sort by `createdAt` descending. -/
def sortByCreatedAtDescend (l : List Conversation) : List Conversation :=
  l.foldr insertDescend []

/-- The merged pagination object built for the multi-status path. -/
structure MergedPagination where
  totalResults : Nat
  totalAvailable : Option Nat
  totalByStatus : Option (List (String × Nat))
  errors : Option (List BranchFailure)
  note : String
  deriving DecidableEq

/-- `failedStatuses.map(f => f.status + ' (' + f.code + ')').join(', ')`. -/
def failedListText (failed : List BranchFailure) : String :=
  String.intercalate ", " (failed.map (fun f => f.status ++ " (" ++ f.code ++ ")"))

/-- The warning suffix of the partial-failure note. -/
def totalsSuffix : String := ". Totals reflect successful statuses only."

/-- The `note` field of the merged pagination object. -/
def mergedNote (failed : List BranchFailure) (byStatusCount totalAvailable returned : Nat) :
    String :=
  if failed.length > 0 then
    "[WARNING] " ++ toString failed.length ++
      " status(es) failed - results incomplete! Failed: " ++ failedListText failed ++
      totalsSuffix
  else
    "Merged results from " ++ toString byStatusCount ++ " statuses. Returned " ++
      toString returned ++ " of " ++ toString totalAvailable ++ " total conversations."

/-- The multi-status (no explicit status) arm of `searchConversations`:
process the settled branch results in order, sort the merged conversations by
`createdAt` descending, truncate to the requested limit afterwards
(`input.limit || 50`, with the schema enforcing 1 ≤ limit ≤ 100), and build
the merged pagination metadata. -/
def multiStatusSearchMerge (settled : List (String × Settled BranchPage)) (limit : Nat) :
    Except SettleReason (List Conversation × MergedPagination) :=
  match processSettled .init settled with
  | .error e => .error e
  | .ok st =>
    let sorted := sortByCreatedAtDescend st.conversations
    let effectiveLimit := if limit = 0 then 50 else limit
    let final := if sorted.length > effectiveLimit then sorted.take effectiveLimit
                 else sorted
    .ok (final,
      { totalResults := final.length,
        totalAvailable := if st.totalByStatus.length > 0 then some st.totalAvailable
                          else none,
        totalByStatus := if st.totalByStatus.length > 0 then some st.totalByStatus
                         else none,
        errors := if st.failedStatuses.length > 0 then some st.failedStatuses else none,
        note := mergedNote st.failedStatuses st.totalByStatus.length st.totalAvailable
                  final.length })

/-- JS truthiness for an optional string argument: `undefined` and `""` are
falsy, everything else truthy. -/
def jsTruthy : Option String → Option String
  | none => none
  | some s => if s = "" then none else some s

/-- The validation regex of `appendCreatedAtFilter`:
four digits, dash, two digits, dash, two digits, optionally followed by
`T`, one or more of digit / colon / dot, and an optional terminal `Z`. -/
def isoDatePattern (s : String) : Bool :=
  match s.toList with
  | y1 :: y2 :: y3 :: y4 :: '-' :: m1 :: m2 :: '-' :: d1 :: d2 :: rest =>
    y1.isDigit && y2.isDigit && y3.isDigit && y4.isDigit && m1.isDigit && m2.isDigit &&
    d1.isDigit && d2.isDigit &&
    (match rest with
     | [] => true
     | 'T' :: ts =>
       let isTimeChar := fun c => c.isDigit || c == ':' || c == '.'
       !(ts.takeWhile isTimeChar).isEmpty &&
         ((ts.dropWhile isTimeChar).isEmpty || ts.dropWhile isTimeChar == ['Z'])
     | _ => false)
  | _ => false

/-- `d.replace(/\.\d{3}Z$/, 'Z')`: drop a dot followed by exactly three
digits when they immediately precede a terminal `Z`. -/
def normalizeDate (d : String) : String :=
  match d.toList.reverse with
  | 'Z' :: a :: b :: c :: '.' :: rest =>
    if a.isDigit && b.isDigit && c.isDigit then String.mk (('Z' :: rest).reverse)
    else d
  | _ => d

/-- Text of the error thrown on a date-format mismatch. -/
def invalidDateMessage (field value : String) : String :=
  "Invalid " ++ field ++ " date format: " ++ value ++
    ". Expected ISO 8601 (e.g., 2024-01-15T00:00:00Z)"

/-- Validation of one bound (only truthy bounds are validated). -/
def checkBound (field : String) : Option String → Except String Unit
  | none => .ok ()
  | some s => if isoDatePattern s then .ok () else .error (invalidDateMessage field s)

/-- The range clause, with `*` as the open end for an absent bound. -/
def dateClause (ca cb : Option String) : String :=
  "(createdAt:[" ++ (match ca with | some d => normalizeDate d | none => "*") ++
    " TO " ++ (match cb with | some d => normalizeDate d | none => "*") ++ "])"

/-- `ToolHandler.appendCreatedAtFilter`: return the existing query untouched
when neither bound is truthy; otherwise validate both bounds, build the range
clause, and AND-combine it with a truthy existing query wrapped in
parentheses. Throwing is modelled by `Except.error`. -/
def appendCreatedAtFilter (existingQuery createdAfter createdBefore : Option String) :
    Except String (Option String) :=
  match jsTruthy createdAfter, jsTruthy createdBefore with
  | none, none => .ok existingQuery
  | ca, cb => do
    checkBound "createdAfter" ca
    checkBound "createdBefore" cb
    match jsTruthy existingQuery with
    | none => .ok (some (dateClause ca cb))
    | some q => .ok (some ("(" ++ q ++ ") AND " ++ dateClause ca cb))

/-- Result of `applyCreatedBeforeFilter`. -/
structure FilterOutcome where
  filtered : List Conversation
  wasFiltered : Bool
  removedCount : Nat
  deriving DecidableEq

/-- `ToolHandler.applyCreatedBeforeFilter`: keep conversations created
strictly before the cutoff (timestamps are the parsed epoch values; the
invalid-date throw happens before any comparison and is outside the claims,
so callers pass an already-parsed cutoff). -/
def applyCreatedBeforeFilter (conversations : List Conversation) (createdBefore : Nat) :
    FilterOutcome :=
  let filtered := conversations.filter (fun c => c.createdAt < createdBefore)
  { filtered := filtered,
    wasFiltered := decide (0 < conversations.length - filtered.length),
    removedCount := conversations.length - filtered.length }

/-- The slice of Help Scout's own page object read by pagination rebuilding. -/
structure ApiPage where
  totalElements : Option Nat
  deriving DecidableEq

/-- Return value of `buildFilteredPagination`: either the API page object
passed through unchanged, or the rebuilt object carrying the filtered count,
the pre-filter API total, and the explanatory note. -/
inductive BuiltPagination where
  | passthrough (apiPage : Option ApiPage)
  | rebuilt (totalResults : Nat) (totalAvailable : Option Nat) (note : String)
  deriving DecidableEq

/-- JS string interpolation of a possibly-undefined number. -/
def optionTotalText : Option Nat → String
  | some n => toString n
  | none => "undefined"

/-- `ToolHandler.buildFilteredPagination`: when filtering happened, report the
post-filter count as `totalResults` and the pre-filter API total as
`totalAvailable`, with a note naming both. -/
def buildFilteredPagination (filteredCount : Nat) (apiPage : Option ApiPage)
    (wasFiltered : Bool) : BuiltPagination :=
  if !wasFiltered then .passthrough apiPage
  else
    let ta := apiPage.bind (·.totalElements)
    .rebuilt filteredCount ta
      ("Results filtered client-side by createdBefore. totalResults shows filtered count (" ++
        toString filteredCount ++ "), totalAvailable shows pre-filter API total (" ++
        optionTotalText ta ++ ").")

/-- The single-status arm of `searchConversations` after the API response:
apply the client-side createdBefore filter, and rebuild pagination exactly
when the filter removed records. -/
def singleStatusCreatedBeforeStep (conversations : List Conversation)
    (createdBefore : Nat) (apiPage : Option ApiPage) :
    List Conversation × BuiltPagination :=
  let fr := applyCreatedBeforeFilter conversations createdBefore
  if fr.wasFiltered then
    (fr.filtered, buildFilteredPagination fr.filtered.length apiPage true)
  else (fr.filtered, .passthrough apiPage)

/-- One entry of the `allResults` array built by `executeMultiStatusSearch`. -/
structure StatusSearchResult where
  status : String
  totalCount : Nat
  totalCountBeforeFilter : Option Nat
  conversations : List Conversation
  searchQuery : String
  filteredByCreatedBefore : Bool
  deriving DecidableEq

/-- The zero-record entry pushed for a branch that failed non-fatally. -/
def emptyFailureEntry (status searchQuery : String) : StatusSearchResult :=
  { status := status, totalCount := 0, totalCountBeforeFilter := none,
    conversations := [], searchQuery := searchQuery, filteredByCreatedBefore := false }

/-- `ToolHandler.executeMultiStatusSearch`: iterate the requested statuses in
order; a fulfilled branch pushes its result, a rejected branch rethrows when
the error is not a structured API error or is classified UNAUTHORIZED or
INVALID_INPUT, and otherwise pushes the zero-record failure entry and
continues with the remaining statuses. The per-status fetch outcome is the
input (one entry per requested status, in request order). -/
def executeMultiStatusSearch (searchQuery : String) :
    List (String × Except SettleReason StatusSearchResult) →
    Except SettleReason (List StatusSearchResult)
  | [] => .ok []
  | (_, .ok result) :: rest =>
    match executeMultiStatusSearch searchQuery rest with
    | .error e => .error e
    | .ok rs => .ok (result :: rs)
  | (status, .error reason) :: rest =>
    if !isApiError reason then .error reason
    else if reason.codeOf == "UNAUTHORIZED" || reason.codeOf == "INVALID_INPUT" then
      .error reason
    else
      match executeMultiStatusSearch searchQuery rest with
      | .error e => .error e
      | .ok rs => .ok (emptyFailureEntry status searchQuery :: rs)

/-- `totalConversationsFound` in `formatComprehensiveSearchResults`. -/
def totalConversationsFound (allResults : List StatusSearchResult) : Nat :=
  (allResults.map (fun r => r.conversations.length)).sum

/-- `totalAvailableAcrossStatuses` in `formatComprehensiveSearchResults`:
the sum of each branch's reported `totalCount` (0 for failed branches). -/
def totalAvailableAcrossStatuses (allResults : List StatusSearchResult) : Nat :=
  (allResults.map (fun r => r.totalCount)).sum

/-! Embedding of the regular expressions used by the content normalizer
(src/utils/html-stripper.ts). Regex tests are modelled by continuation-passing
matchers over character lists; every quantifier in the source patterns ranges
over a single-character class, so backtracking is captured exactly by the
disjunctions in `starCls` and `upToCls`. A test with a `^` anchor is matcher
acceptance of the whole input (with `endAnchor` for `$`, `anyRest` when the
pattern is not right-anchored). -/

/-- JS whitespace class `\s` (also the set trimmed by `String.prototype.trim`),
restricted to the code points that can occur in the analyzed flows. -/
def jsWhitespace (c : Char) : Bool :=
  c == ' ' || c == '\t' || c == '\n' || c == '\r' || c == '\x0B' ||
    c == '\x0C' || c == '\u00A0' || c == '\uFEFF'

/-- JS `.` (no dotall flag): any character except a newline. -/
def dotAny (c : Char) : Bool := c != '\n'

/-- Match one character of a class, then continue. -/
def charOne (p : Char → Bool) (k : List Char → Bool) : List Char → Bool
  | [] => false
  | c :: cs => p c && k cs

/-- Match a literal character sequence, then continue. -/
def litSeq : List Char → (List Char → Bool) → List Char → Bool
  | [], k => k
  | p :: ps, k => charOne (fun c => c == p) (litSeq ps k)

/-- Match a literal sequence ASCII-case-insensitively, then continue. -/
def litCI : List Char → (List Char → Bool) → List Char → Bool
  | [], k => k
  | p :: ps, k => charOne (fun c => c.toLower == p.toLower) (litCI ps k)

/-- Kleene star over a character class (with full backtracking). -/
def starCls (p : Char → Bool) (k : List Char → Bool) : List Char → Bool
  | [] => k []
  | c :: cs => k (c :: cs) || (p c && starCls p k cs)

/-- One-or-more repetition of a character class. -/
def plusCls (p : Char → Bool) (k : List Char → Bool) : List Char → Bool :=
  charOne p (starCls p k)

/-- Exactly `n` repetitions of a character class. -/
def repCls (p : Char → Bool) : Nat → (List Char → Bool) → List Char → Bool
  | 0, k => k
  | n + 1, k => charOne p (repCls p n k)

/-- At most `n` repetitions of a character class (with backtracking). -/
def upToCls (p : Char → Bool) : Nat → (List Char → Bool) → List Char → Bool
  | 0, k => k
  | n + 1, k => fun cs =>
    k cs || (match cs with
             | [] => false
             | c :: cs' => p c && upToCls p n k cs')

/-- Between `lo` and `lo + extra` repetitions of a character class. -/
def rangeCls (p : Char → Bool) (lo extra : Nat) (k : List Char → Bool) :
    List Char → Bool :=
  repCls p lo (upToCls p extra k)

/-- Alternation over a list of sub-matchers. -/
def altList (ms : List ((List Char → Bool) → List Char → Bool))
    (k : List Char → Bool) (cs : List Char) : Bool :=
  ms.any (fun m => m k cs)

/-- The `$` anchor. -/
def endAnchor : List Char → Bool := fun cs => cs.isEmpty

/-- Continuation for patterns without a right anchor. -/
def anyRest : List Char → Bool := fun _ => true

/-- `^-{3,}\s*(Forwarded message|Original Message)\s*-{3,}$` (case-insensitive). -/
def forwardMarkerPat : List Char → Bool :=
  repCls (· == '-') 3 (starCls (· == '-') (starCls jsWhitespace
    (altList [litCI "Forwarded message".toList, litCI "Original Message".toList]
      (starCls jsWhitespace (repCls (· == '-') 3 (starCls (· == '-') endAnchor))))))

/-- `^Begin forwarded message:\s*$` (case-insensitive). -/
def beginForwardedPat : List Char → Bool :=
  litCI "Begin forwarded message:".toList (starCls jsWhitespace endAnchor)

/-- `^On\s+.{10,100}\s+wrote:\s*$` (case-sensitive). -/
def onWrotePat : List Char → Bool :=
  litSeq "On".toList (plusCls jsWhitespace (rangeCls dotAny 10 90
    (plusCls jsWhitespace (litSeq "wrote:".toList (starCls jsWhitespace endAnchor)))))

/-- `^Am\s+.{10,100}\s+schrieb\s+.+:\s*$` (case-sensitive). -/
def amSchriebPat : List Char → Bool :=
  litSeq "Am".toList (plusCls jsWhitespace (rangeCls dotAny 10 90
    (plusCls jsWhitespace (litSeq "schrieb".toList (plusCls jsWhitespace
      (plusCls dotAny (litSeq ":".toList (starCls jsWhitespace endAnchor))))))))

/-- `^Le\s+.{10,100}\s+a\s+.+crit\s*:\s*$` (case-insensitive). -/
def leEcritPat : List Char → Bool :=
  litCI "Le".toList (plusCls jsWhitespace (rangeCls dotAny 10 90
    (plusCls jsWhitespace (litCI "a".toList (plusCls jsWhitespace
      (plusCls dotAny (litCI "crit".toList (starCls jsWhitespace
        (litSeq ":".toList (starCls jsWhitespace endAnchor))))))))))

/-- `^(Von|From|De|Da|Di):\s+.+` (case-sensitive, no right anchor). -/
def headerFieldPat : List Char → Bool :=
  altList [litSeq "Von".toList, litSeq "From".toList, litSeq "De".toList,
           litSeq "Da".toList, litSeq "Di".toList]
    (litSeq ":".toList (plusCls jsWhitespace (plusCls dotAny anyRest)))

/-- `^(Datum|Date|Fecha|Data):\s+.+` (case-sensitive, no right anchor). -/
def dateFieldPat : List Char → Bool :=
  altList [litSeq "Datum".toList, litSeq "Date".toList, litSeq "Fecha".toList,
           litSeq "Data".toList]
    (litSeq ":".toList (plusCls jsWhitespace (plusCls dotAny anyRest)))

/-- Left trim over the JS whitespace class. -/
def ltrimChars (cs : List Char) : List Char := cs.dropWhile jsWhitespace

/-- Right trim over the JS whitespace class. -/
def rtrimChars (cs : List Char) : List Char := (cs.reverse.dropWhile jsWhitespace).reverse

/-- `String.prototype.trim`. -/
def jsTrim (cs : List Char) : List Char := rtrimChars (ltrimChars cs)

/-- `text.split('\n')` on character lists. -/
def splitNl : List Char → List (List Char)
  | [] => [[]]
  | c :: cs =>
    if c = '\n' then [] :: splitNl cs
    else
      match splitNl cs with
      | [] => [[c]]
      | l :: ls => (c :: l) :: ls

/-- `lines.join('\n')` on character lists. -/
def joinNl : List (List Char) → List Char
  | [] => []
  | [l] => l
  | l :: ls => l ++ '\n' :: joinNl ls

/-- The per-line cut test of `stripQuotedContent`: patterns 1 and 2 on the
trimmed line, and pattern 3 (a header-field line with a date-field line among
the following lines scanned by `for (j = i + 1; j < Math.min(i + 8,
lines.length); j++)`, i.e. among the next seven lines). -/
def lineCut (l : List Char) (following : List (List Char)) : Bool :=
  let t := jsTrim l
  forwardMarkerPat t || beginForwardedPat t ||
    onWrotePat t || amSchriebPat t || leEcritPat t ||
    (headerFieldPat t && (following.take 7).any (fun m => dateFieldPat (jsTrim m)))

/-- Index of the first line passing `lineCut` (the loop's `cutIndex`). -/
def findCut : List (List Char) → Option Nat
  | [] => none
  | l :: ls => if lineCut l ls then some 0 else (findCut ls).map (· + 1)

/-- Decimal digit character. -/
def digitChar : Nat → Char
  | 0 => '0'
  | 1 => '1'
  | 2 => '2'
  | 3 => '3'
  | 4 => '4'
  | 5 => '5'
  | 6 => '6'
  | 7 => '7'
  | 8 => '8'
  | _ => '9'

/-- Structural digit accumulator (the fuel bounds the digit count, and any
fuel above it yields the same digits). -/
def natCharsAux : Nat → Nat → List Char
  | 0, _ => []
  | fuel + 1, n =>
    if n < 10 then [digitChar n]
    else natCharsAux fuel (n / 10) ++ [digitChar (n % 10)]

/-- Decimal representation of a natural number (JS number-to-string for the
integer values occurring here). -/
def natChars (n : Nat) : List Char := natCharsAux (n + 1) n

/-- The fixed removal notice with the removed character count. -/
def noticeChars (removed : Nat) : List Char :=
  "[Quoted/forwarded content removed - ".toList ++ natChars removed ++
    " chars]".toList

/-- `stripQuotedContent` on character lists: find the first cut line, keep the
trimmed prefix when it has at least 10 characters and the removed suffix has
at least 100 characters, and append the removal notice; otherwise return the
text unchanged. -/
def stripQuotedContentL (cs : List Char) : List Char :=
  if cs.isEmpty then [] else
  let lines := splitNl cs
  match findCut lines with
  | none => cs
  | some i =>
    let kept := jsTrim (joinNl (lines.take i))
    if kept.length < 10 then cs
    else
      let removedChars := (joinNl (lines.drop i)).length
      if removedChars < 100 then cs
      else kept ++ '\n' :: '\n' :: noticeChars removedChars

/-- `stripQuotedContent` from src/unnamed/part_001 (second revision: the
case-sensitive header block and the 100-character minimum removal guard). -/
def stripQuotedContent (s : String) : String := String.mk (stripQuotedContentL s.toList)

/-- Consume a literal sequence case-sensitively, returning the remainder. -/
def dropLit : List Char → List Char → Option (List Char)
  | [], cs => some cs
  | p :: ps, c :: cs => if c == p then dropLit ps cs else none
  | _ :: _, [] => none

/-- Consume a literal sequence ASCII-case-insensitively, returning the
remainder. -/
def dropCI : List Char → List Char → Option (List Char)
  | [], cs => some cs
  | p :: ps, c :: cs => if c.toLower == p.toLower then dropCI ps cs else none
  | _ :: _, [] => none

/-- Deterministic prefix matcher for `/<br\s*\/?>/i`: the quantified pieces
range over disjoint characters, so greedy matching is exact. -/
def brMatch (cs : List Char) : Option (List Char) :=
  match dropCI "<br".toList cs with
  | none => none
  | some rest =>
    let rest2 := rest.dropWhile jsWhitespace
    let rest3 := match rest2 with
                 | '/' :: r => r
                 | _ => rest2
    match rest3 with
    | '>' :: r => some r
    | _ => none

/-- The closing block tags `(p|div|li|tr|h[1-6])`. -/
def closeBlockTags : List (List Char) :=
  ["p", "div", "li", "tr", "h1", "h2", "h3", "h4", "h5", "h6"].map String.toList

/-- Try each tag name (case-insensitively) followed by `>`. -/
def tryCloseTags : List (List Char) → List Char → Option (List Char)
  | [], _ => none
  | t :: ts, rest =>
    match dropCI t rest with
    | some ('>' :: r) => some r
    | _ => tryCloseTags ts rest

/-- Prefix matcher for `/<\/(p|div|li|tr|h[1-6])>/i`. -/
def closeBlockMatch (cs : List Char) : Option (List Char) :=
  match dropLit "</".toList cs with
  | none => none
  | some rest => tryCloseTags closeBlockTags rest

/-- Prefix matcher for `/<[^>]+>/`. -/
def anyTagMatch (cs : List Char) : Option (List Char) :=
  match cs with
  | '<' :: rest =>
    if (rest.takeWhile (· != '>')).isEmpty then none
    else
      match rest.dropWhile (· != '>') with
      | '>' :: r => some r
      | _ => none
  | _ => none

/-- Prefix matcher for `/[ \t]+/`. -/
def spaceTabMatch (cs : List Char) : Option (List Char) :=
  match cs with
  | c :: rest =>
    if c == ' ' || c == '\t' then some (rest.dropWhile (fun x => x == ' ' || x == '\t'))
    else none
  | [] => none

/-- Prefix matcher for `/\n{3,}/`. -/
def newlines3Match (cs : List Char) : Option (List Char) :=
  match cs with
  | '\n' :: '\n' :: '\n' :: rest => some (rest.dropWhile (· == '\n'))
  | _ => none

/-- Fueled scanner for the global replace (fuel one above the input length is
always sufficient, since every step either consumes the match or one
character). -/
def globalReplaceAux (m : List Char → Option (List Char)) (repl : List Char) :
    Nat → List Char → List Char
  | 0, cs => cs
  | _ + 1, [] => []
  | fuel + 1, c :: cs =>
    match m (c :: cs) with
    | some rest =>
      if rest.length ≤ cs.length then repl ++ globalReplaceAux m repl fuel rest
      else c :: globalReplaceAux m repl fuel cs
    | none => c :: globalReplaceAux m repl fuel cs

/-- `String.prototype.replace` with a global pattern: scan left to right,
replace each leftmost non-overlapping match, never rescan the replacement.
The length guard records that a match consumes at least one character (true
of every matcher used here). -/
def globalReplace (m : List Char → Option (List Char)) (repl : List Char)
    (cs : List Char) : List Char :=
  globalReplaceAux m repl (cs.length + 1) cs

/-- `/<blockquote[^>]*>[\s\S]*$/i`, without the trailing always-matching
`[\s\S]*$` part. -/
def blockquoteHit : List Char → Bool :=
  litCI "<blockquote".toList (starCls (· != '>') (litSeq ">".toList anyRest))

/-- `/<div\s[^>]*class="[^"]*CLS[^"]*"[^>]*>[\s\S]*$/i` for a given class
fragment. -/
def divClassHit (cls : List Char) : List Char → Bool :=
  litCI "<div".toList (charOne jsWhitespace (starCls (· != '>')
    (litCI "class=\"".toList (starCls (· != '"') (litCI cls
      (starCls (· != '"') (litSeq "\"".toList (starCls (· != '>')
        (litSeq ">".toList anyRest)))))))))

/-- `/<div\s[^>]*id="appendonsend"[^>]*>[\s\S]*$/i`. -/
def appendonsendHit : List Char → Bool :=
  litCI "<div".toList (charOne jsWhitespace (starCls (· != '>')
    (litCI "id=\"appendonsend\"".toList (starCls (· != '>')
      (litSeq ">".toList anyRest)))))

/-- Index of the leftmost position where a pattern matches (`match.index`). -/
def firstHitIdx (m : List Char → Bool) : List Char → Option Nat
  | [] => if m [] then some 0 else none
  | c :: cs => if m (c :: cs) then some 0 else (firstHitIdx m cs).map (· + 1)

/-- The HTML-level quote-pattern loop: for the first pattern whose leftmost
match starts after more than 50 characters, truncate there and stop; a
pattern matching at or before index 50 does not truncate and does not stop
the loop. -/
def htmlQuoteCutGo : List (List Char → Bool) → List Char → List Char
  | [], cs => cs
  | m :: ms, cs =>
    match firstHitIdx m cs with
    | some i => if i > 50 then cs.take i else htmlQuoteCutGo ms cs
    | none => htmlQuoteCutGo ms cs

/-- The `htmlQuotePatterns` stage of `stripHtml` (blockquote, gmail_quote,
appendonsend, yahoo_quoted, in that order). -/
def htmlQuotePatternsStep (cs : List Char) : List Char :=
  htmlQuoteCutGo
    [blockquoteHit, divClassHit "gmail_quote".toList, appendonsendHit,
     divClassHit "yahoo_quoted".toList] cs

/-- The entity-decoding chain, replace by replace, in source order. -/
def entityDecode (cs : List Char) : List Char :=
  let t := globalReplace (dropLit "&amp;".toList) "&".toList cs
  let t := globalReplace (dropLit "&lt;".toList) "<".toList t
  let t := globalReplace (dropLit "&gt;".toList) ">".toList t
  let t := globalReplace (dropLit "&quot;".toList) "\"".toList t
  let t := globalReplace (dropLit "&#39;".toList) ['\''] t
  globalReplace (dropLit "&nbsp;".toList) " ".toList t

/-- `stripHtml` on character lists: quote-container truncation, break and
closing-block tags to newlines, tag removal, entity decoding, horizontal
whitespace collapse, newline capping, trim, and the optional length cap
(`maxLength ? text.slice(0, maxLength) : text`, so a zero maximum is falsy
and caps nothing). -/
def stripHtmlL (cs : List Char) (maxLength : Option Nat) : List Char :=
  if cs.isEmpty then [] else
  let t := htmlQuotePatternsStep cs
  let t := globalReplace brMatch ['\n'] t
  let t := globalReplace closeBlockMatch ['\n'] t
  let t := globalReplace anyTagMatch [] t
  let t := entityDecode t
  let t := globalReplace spaceTabMatch [' '] t
  let t := globalReplace newlines3Match ['\n', '\n'] t
  let t := jsTrim t
  match maxLength with
  | some m => if m = 0 then t else t.take m
  | none => t

/-- `stripHtml` from src/unnamed/part_001 (the revision with the HTML-level
quote patterns). -/
def stripHtml (s : String) (maxLength : Option Nat) : String :=
  String.mk (stripHtmlL s.toList maxLength)

/-- An `<img>` tag as seen by the extraction callback: the captured `src`,
`alt`, `width`, `height` attribute values (`width`/`height` are the captured
digit strings, `null` when the attribute regex does not match). -/
structure ImgTag where
  src : String
  alt : String
  width : Option String
  height : Option String
  deriving DecidableEq

/-- A message body tokenized for `extractInlineImages`: the alternation of
plain markup runs and `<img ...>` tags produced by the source's
`html.replace(/<img\b[^>]*>/gi, cb)` scan — the claims concern the callback's
policy, so tokenization is taken as given and the callback is modelled
exactly. -/
inductive Piece where
  | text (s : String)
  | img (tag : ImgTag)
  deriving DecidableEq

/-- Extracted inline-image metadata. -/
structure InlineImage where
  index : Nat
  src : String
  alt : String
  width : Option String
  height : Option String
  isFetchable : Bool
  deriving DecidableEq

/-- `/^https?:\/\//i.test(src)`. -/
def srcFetchable (src : String) : Bool :=
  litCI "http://".toList anyRest src.toList || litCI "https://".toList anyRest src.toList

/-- The placeholder: `alt ? '[Image N: alt]' : '[Image N]'`. -/
def imgPlaceholder (i : Nat) (alt : String) : String :=
  if alt = "" then "[Image " ++ toString i ++ "]"
  else "[Image " ++ toString i ++ ": " ++ alt ++ "]"

/-- The replace callback of `extractInlineImages`, threaded over the pieces in
document order with the running retained-image counter. -/
def extractGo (imageIndex : Nat) : List Piece → List InlineImage × String
  | [] => ([], "")
  | .text s :: ps =>
    let r := extractGo imageIndex ps
    (r.1, s ++ r.2)
  | .img t :: ps =>
    if t.width == some "1" && t.height == some "1" then
      let r := extractGo imageIndex ps
      (r.1, r.2)
    else
      let i := imageIndex + 1
      let img : InlineImage := ⟨i, t.src, t.alt, t.width, t.height, srcFetchable t.src⟩
      let r := extractGo i ps
      (img :: r.1, imgPlaceholder i t.alt ++ r.2)

/-- `extractInlineImages` from src/unnamed/part_001. -/
def extractInlineImages (pieces : List Piece) : List InlineImage × String :=
  extractGo 0 pieces

/-- Seen-id set after scanning a branch's conversations. -/
def seenAfter (seen : List Nat) : List Conversation → List Nat
  | [] => seen
  | c :: cs => if c.id ∈ seen then seenAfter seen cs
               else seenAfter (c.id :: seen) cs

/-- Claim-side characterization of the merge: keep each conversation whose id
has not been added by an earlier branch (or earlier in the same branch). -/
def dedupFirstById (seen : List Nat) : List Conversation → List Conversation
  | [] => []
  | c :: cs => if c.id ∈ seen then dedupFirstById seen cs
               else c :: dedupFirstById (c.id :: seen) cs

/-- Claim-side sum of the API-reported totals over successful branches only
(failed branches contribute 0). -/
def successTotalSum : List (String × Settled BranchPage) → Nat
  | [] => 0
  | (_, .fulfilled page) :: rest => page.totalElements.getD 0 + successTotalSum rest
  | (_, .rejected _) :: rest => successTotalSum rest

/-- Per-status totals of the fulfilled branches, in branch order. -/
def fulfilledTotals : List (String × Settled BranchPage) → List (String × Nat)
  | [] => []
  | (s, .fulfilled page) :: rest => (s, page.totalElements.getD 0) :: fulfilledTotals rest
  | (_, .rejected _) :: rest => fulfilledTotals rest

/-- Claim-side list of the non-fatal branch failures with their status,
message and code, in branch order. -/
def nonFatalFailures : List (String × Settled BranchPage) → List BranchFailure
  | [] => []
  | (_, .fulfilled _) :: rest => nonFatalFailures rest
  | (s, .rejected r) :: rest =>
    if isApiError r && !(r.codeOf == "UNAUTHORIZED" || r.codeOf == "INVALID_INPUT")
    then ⟨s, r.messageOf, r.codeOf⟩ :: nonFatalFailures rest
    else nonFatalFailures rest

/-- Tracking-pixel test of the extraction callback: both captured dimension
strings equal `"1"`. -/
def isPixelTag (t : ImgTag) : Bool := t.width == some "1" && t.height == some "1"

/-- Claim-side list of the retained (non-pixel) image tags in document order. -/
def retainedTags (pieces : List Piece) : List ImgTag :=
  pieces.filterMap (fun pc => match pc with
    | .img t => if isPixelTag t then none else some t
    | .text _ => none)

/-- Claim-side image record for the tag at 0-based retained position `e.1`. -/
def imageOfEnum (e : Nat × ImgTag) : InlineImage :=
  ⟨e.1 + 1, e.2.src, e.2.alt, e.2.width, e.2.height, srcFetchable e.2.src⟩

/-- Claim-side image list: the retained tags enumerated from 1 in document
order. -/
def specImages (pieces : List Piece) : List InlineImage :=
  ((retainedTags pieces).enum).map imageOfEnum

/-- Claim-side output text with `n` retained images before the current
position: text runs verbatim, pixels vanish, each retained image becomes its
placeholder with the next sequential index. -/
def specText : Nat → List Piece → String
  | _, [] => ""
  | n, .text s :: ps => s ++ specText n ps
  | n, .img t :: ps =>
    if isPixelTag t then specText n ps
    else imgPlaceholder (n + 1) t.alt ++ specText (n + 1) ps

/-- Modelled from the spec: the claim's header-pair rule — a header-field line
followed "within the next 8 lines" by a matching date-field line — scans the
next eight lines; the code (and its `Math.min(i + 8, lines.length)` bound with
`j` starting at `i + 1`) scans only the next seven. All other patterns and
guards follow the source unchanged. -/
def lineCutSpec8 (l : List Char) (following : List (List Char)) : Bool :=
  let t := jsTrim l
  forwardMarkerPat t || beginForwardedPat t ||
    onWrotePat t || amSchriebPat t || leEcritPat t ||
    (headerFieldPat t && (following.take 8).any (fun m => dateFieldPat (jsTrim m)))

/-- Modelled from the spec: first cut line under the eight-line window. -/
def findCutSpec8 : List (List Char) → Option Nat
  | [] => none
  | l :: ls => if lineCutSpec8 l ls then some 0 else (findCutSpec8 ls).map (· + 1)

/-- Modelled from the spec: `stripQuotedContent` as the claim describes it,
differing from the source only in the eight-line header-pair window. -/
def stripQuotedContentSpec8L (cs : List Char) : List Char :=
  if cs.isEmpty then [] else
  let lines := splitNl cs
  match findCutSpec8 lines with
  | none => cs
  | some i =>
    let kept := jsTrim (joinNl (lines.take i))
    if kept.length < 10 then cs
    else
      let removedChars := (joinNl (lines.drop i)).length
      if removedChars < 100 then cs
      else kept ++ '\n' :: '\n' :: noticeChars removedChars

/-- String-level wrapper of the spec-modelled quote removal. -/
def stripQuotedContentSpec8 (s : String) : String :=
  String.mk (stripQuotedContentSpec8L s.toList)

/-- The C8 failing input: ten characters of content, a From header, seven
non-date lines, a Date line exactly eight lines after the header, and more
than one hundred characters of removable suffix. -/
def headerPairEighthLineInput : String :=
  "Intro text\nFrom: alice@example.com\na\nb\nc\nd\ne\nf\ng\nDate: 2024-01-01 reply follows\n" ++
    String.mk (List.replicate 120 'x')

/-- Line-level effect of a left trim on the newline-split lines: leading
all-whitespace lines disappear and the first surviving line is left-trimmed. -/
def dropLeftLines : List (List Char) → List (List Char)
  | [] => []
  | [l] => [ltrimChars l]
  | l :: ls => if ltrimChars l = [] then dropLeftLines ls else ltrimChars l :: ls

/-- Reverse the line list and each line (the mirror taking right trims to left
trims). -/
def revLines (ls : List (List Char)) : List (List Char) := (ls.map List.reverse).reverse

/-- Line-level effect of a right trim, via the mirror. -/
def dropRightLines (ls : List (List Char)) : List (List Char) :=
  revLines (dropLeftLines (revLines ls))

/-- The seven-line window scanned for a date-field line by the header-pair
rule. -/
def dateWindow (ls : List (List Char)) : Bool :=
  (ls.take 7).any (fun m => dateFieldPat (jsTrim m))

/-- The post-cut branch of `stripQuotedContent` on a non-empty input whose
first cut line is `i`. -/
def sqcBody (c : Char) (cs : List Char) (i : Nat) : List Char :=
  if (jsTrim (joinNl ((splitNl (c :: cs)).take i))).length < 10 then c :: cs
  else if (joinNl ((splitNl (c :: cs)).drop i)).length < 100 then c :: cs
  else jsTrim (joinNl ((splitNl (c :: cs)).take i)) ++ '\n' :: '\n' ::
    noticeChars (joinNl ((splitNl (c :: cs)).drop i)).length

/-! Theorems. -/

/-- Millisecond stripping: `normalizeDate` removes a dot followed by exactly
three digits immediately before a terminal `Z`. -/
theorem normalizeDate_millis (d1 d2 d3 : Char) (h1 : d1.isDigit) (h2 : d2.isDigit)
    (h3 : d3.isDigit) (s : List Char) :
    normalizeDate (String.mk (s ++ '.' :: d1 :: d2 :: d3 :: ['Z'])) = String.mk (s ++ ['Z']) := by
  unfold normalizeDate
  simp [List.reverse_append, h1, h2, h3]

/-- C10: for every html input, `stripHtml` with a configured maximum length of
0 performs no truncation and returns the same text as `stripHtml` with no
maximum length (a falsy `maxLength` disables the cap rather than emptying the
output). -/
theorem stripHtml_zero_maxLength_eq_none (s : String) :
    stripHtml s (some 0) = stripHtml s none := rfl

/-- C9 counterexample: a valid bound with a two-digit fractional component is
not stripped — `appendCreatedAtFilter` emits the fraction verbatim instead of
the fraction-free clause the claim predicts. -/
theorem appendCreatedAtFilter_fraction_not_stripped :
    appendCreatedAtFilter none (some "2024-01-15T00:00:00.12Z") none =
      .ok (some "(createdAt:[2024-01-15T00:00:00.12Z TO *])") ∧
    appendCreatedAtFilter none (some "2024-01-15T00:00:00.12Z") none ≠
      .ok (some "(createdAt:[2024-01-15T00:00:00Z TO *])") := by
  constructor
  · decide
  · decide

/-- C9 (amended): with at least one truthy bound, each supplied bound is
validated against the ISO-8601 pattern with a descriptive error on mismatch;
an exactly-three-digit fractional component before a terminal `Z`
(millisecond precision) is stripped from a bound; a single range clause is
emitted with `*` as the open end for an absent bound; the clause is
AND-combined with a non-empty prior query wrapped in parentheses; and with
neither bound present the existing query is returned unchanged. -/
theorem appendCreatedAtFilter_spec (q : Option String) (a b qs : String) :
    (appendCreatedAtFilter q none none = .ok q) ∧
    (appendCreatedAtFilter q (some "") (some "") = .ok q) ∧
    (a ≠ "" → isoDatePattern a = false → ∀ cb,
      appendCreatedAtFilter q (some a) cb =
        .error (invalidDateMessage "createdAfter" a)) ∧
    (a ≠ "" → isoDatePattern a = true → b ≠ "" → isoDatePattern b = false →
      appendCreatedAtFilter q (some a) (some b) =
        .error (invalidDateMessage "createdBefore" b)) ∧
    (a ≠ "" → isoDatePattern a = true →
      appendCreatedAtFilter none (some a) none =
        .ok (some ("(createdAt:[" ++ normalizeDate a ++ " TO *])"))) ∧
    (b ≠ "" → isoDatePattern b = true →
      appendCreatedAtFilter none none (some b) =
        .ok (some ("(createdAt:[* TO " ++ normalizeDate b ++ "])"))) ∧
    (a ≠ "" → isoDatePattern a = true → qs ≠ "" →
      appendCreatedAtFilter (some qs) (some a) none =
        .ok (some ("(" ++ qs ++ ") AND (createdAt:[" ++ normalizeDate a ++ " TO *])"))) := by
  refine ⟨rfl, rfl, ?_, ?_, ?_, ?_, ?_⟩
  · intro ha hpat cb
    simp [appendCreatedAtFilter, jsTruthy, if_neg ha, checkBound, hpat, Bind.bind,
      Except.bind]
  · intro ha hpa hb hpb
    simp [appendCreatedAtFilter, jsTruthy, if_neg ha, if_neg hb, checkBound, hpa, hpb,
      Bind.bind, Except.bind]
  · intro ha hpa
    simp [appendCreatedAtFilter, jsTruthy, if_neg ha, checkBound, hpa, Bind.bind,
      Except.bind, dateClause, String.append_assoc]
  · intro hb hpb
    simp [appendCreatedAtFilter, jsTruthy, if_neg hb, checkBound, hpb, Bind.bind,
      Except.bind, dateClause, String.append_assoc]
  · intro ha hpa hq
    simp only [appendCreatedAtFilter, jsTruthy, if_neg ha, if_neg hq, checkBound, hpa,
      Bind.bind, Except.bind, dateClause, String.append_assoc]
    rfl

/-- C9 witness: the amended theorem applied at concrete inputs — a
millisecond-precision lower bound combined with a non-empty prior query. -/
theorem appendCreatedAtFilter_spec_witness :
    appendCreatedAtFilter (some "(body:\"refund\")") (some "2024-01-15T00:00:00.123Z") none =
      .ok (some "((body:\"refund\")) AND (createdAt:[2024-01-15T00:00:00Z TO *])") := by
  have h := (appendCreatedAtFilter_spec (some "(body:\"refund\")")
    "2024-01-15T00:00:00.123Z" "x" "(body:\"refund\")").2.2.2.2.2.2
    (by decide) (by decide) (by decide)
  rw [show normalizeDate "2024-01-15T00:00:00.123Z" = "2024-01-15T00:00:00Z" from rfl] at h
  exact h

/-- The dedup loop only ever touches `seenIds` and `conversations`. -/
theorem foldl_pushIfUnseen_bookkeeping (cs : List Conversation) (st : MergeState) :
    (cs.foldl pushIfUnseen st).failedStatuses = st.failedStatuses ∧
    (cs.foldl pushIfUnseen st).totalAvailable = st.totalAvailable ∧
    (cs.foldl pushIfUnseen st).totalByStatus = st.totalByStatus := by
  induction cs generalizing st with
  | nil => exact ⟨rfl, rfl, rfl⟩
  | cons c cs ih =>
    have hp : (pushIfUnseen st c).failedStatuses = st.failedStatuses ∧
        (pushIfUnseen st c).totalAvailable = st.totalAvailable ∧
        (pushIfUnseen st c).totalByStatus = st.totalByStatus := by
      unfold pushIfUnseen
      split <;> exact ⟨rfl, rfl, rfl⟩
    obtain ⟨ha, hb, hc⟩ := ih (pushIfUnseen st c)
    simp only [List.foldl_cons]
    exact ⟨ha.trans hp.1, hb.trans hp.2.1, hc.trans hp.2.2⟩

/-- The dedup loop appends exactly the first-occurrence conversations and
extends the seen set accordingly. -/
theorem foldl_pushIfUnseen_spec :
    ∀ (cs : List Conversation) (st : MergeState),
      cs.foldl pushIfUnseen st =
        { st with conversations := st.conversations ++ dedupFirstById st.seenIds cs,
                  seenIds := seenAfter st.seenIds cs } := by
  intro cs
  induction cs with
  | nil => intro st; simp [dedupFirstById, seenAfter]
  | cons c cs ih =>
    intro st
    simp only [List.foldl_cons]
    by_cases hc : c.id ∈ st.seenIds
    · rw [show pushIfUnseen st c = st from by simp [pushIfUnseen, hc]]
      rw [ih st]
      simp [dedupFirstById, seenAfter, hc]
    · rw [show pushIfUnseen st c =
          { st with seenIds := c.id :: st.seenIds,
                    conversations := st.conversations ++ [c] } from by
        simp [pushIfUnseen, hc]]
      rw [ih]
      simp [dedupFirstById, seenAfter, hc, List.append_assoc]

/-- First-occurrence dedup distributes over branch concatenation. -/
theorem dedupFirstById_append (xs ys : List Conversation) :
    ∀ seen, dedupFirstById seen (xs ++ ys) =
      dedupFirstById seen xs ++ dedupFirstById (seenAfter seen xs) ys := by
  induction xs with
  | nil => intro seen; simp [dedupFirstById, seenAfter]
  | cons x xs ih =>
    intro seen
    simp only [List.cons_append, dedupFirstById, seenAfter]
    by_cases hc : x.id ∈ seen
    · simp [hc, ih]
    · simp [hc, ih]

/-- Seen-set evolution distributes over branch concatenation. -/
theorem seenAfter_append (xs ys : List Conversation) :
    ∀ seen, seenAfter seen (xs ++ ys) = seenAfter (seenAfter seen xs) ys := by
  induction xs with
  | nil => intro seen; simp [seenAfter]
  | cons x xs ih =>
    intro seen
    simp only [List.cons_append, seenAfter]
    by_cases hc : x.id ∈ seen
    · simp [hc, ih]
    · simp [hc, ih]

/-- The deduplicated merge has no duplicate ids, and none of the ids it keeps
is in the initial seen set. -/
theorem dedupFirstById_ids_nodup :
    ∀ (cs : List Conversation) (seen : List Nat),
      ((dedupFirstById seen cs).map (fun x => x.id)).Nodup ∧
      ∀ c ∈ dedupFirstById seen cs, ¬ c.id ∈ seen := by
  intro cs
  induction cs with
  | nil => intro seen; simp [dedupFirstById]
  | cons c cs ih =>
    intro seen
    unfold dedupFirstById
    by_cases hc : c.id ∈ seen
    · simpa [hc] using ih seen
    · obtain ⟨hnd, hdisj⟩ := ih (c.id :: seen)
      rw [if_neg hc]
      refine ⟨?_, ?_⟩
      · simp only [List.map_cons, List.nodup_cons]
        refine ⟨?_, hnd⟩
        intro hmem
        obtain ⟨d, hd, hdid⟩ := List.mem_map.mp hmem
        exact hdisj d hd (by simp [hdid])
      · intro d hd
        rcases List.mem_cons.mp hd with rfl | hd
        · exact hc
        · intro hmem
          exact hdisj d hd (List.mem_cons_of_mem _ hmem)

/-- Membership in a stable descending insertion. -/
theorem mem_insertDescend {x c : Conversation} :
    ∀ {l : List Conversation}, x ∈ insertDescend c l ↔ x = c ∨ x ∈ l := by
  intro l
  induction l with
  | nil => simp [insertDescend]
  | cons d ds ih =>
    unfold insertDescend
    by_cases hc : d.createdAt ≤ c.createdAt
    · rw [if_pos hc]
      simp only [List.mem_cons]
    · rw [if_neg hc]
      simp only [List.mem_cons, ih]
      tauto

/-- Stable descending insertion preserves non-increasing order. -/
theorem insertDescend_sorted {c : Conversation} :
    ∀ {l : List Conversation}, l.Pairwise (fun x y => y.createdAt ≤ x.createdAt) →
      (insertDescend c l).Pairwise (fun x y => y.createdAt ≤ x.createdAt) := by
  intro l
  induction l with
  | nil => intro _; simp [insertDescend]
  | cons d ds ih =>
    intro h
    obtain ⟨hd, hds⟩ := List.pairwise_cons.mp h
    unfold insertDescend
    by_cases hc : d.createdAt ≤ c.createdAt
    · simp only [hc, if_pos]
      refine List.pairwise_cons.mpr ⟨?_, h⟩
      intro b hb
      rcases List.mem_cons.mp hb with rfl | hb
      · exact hc
      · exact le_trans (hd b hb) hc
    · simp only [hc, if_neg, Bool.false_eq_true]
      refine List.pairwise_cons.mpr ⟨?_, ih hds⟩
      intro b hb
      rcases mem_insertDescend.mp hb with rfl | hb
      · omega
      · exact hd b hb

/-- Stable descending insertion is a permutation of consing. -/
theorem perm_insertDescend (c : Conversation) :
    ∀ (l : List Conversation), List.Perm (insertDescend c l) (c :: l) := by
  intro l
  induction l with
  | nil => exact List.Perm.refl _
  | cons d ds ih =>
    unfold insertDescend
    by_cases hc : d.createdAt ≤ c.createdAt
    · rw [if_pos hc]
    · rw [if_neg hc]
      exact (List.Perm.cons d ih).trans (List.Perm.swap c d ds)

/-- The sort produces a non-increasing sequence of creation timestamps. -/
theorem sortByCreatedAtDescend_sorted (l : List Conversation) :
    (sortByCreatedAtDescend l).Pairwise (fun x y => y.createdAt ≤ x.createdAt) := by
  induction l with
  | nil => simp [sortByCreatedAtDescend]
  | cons c cs ih =>
    simpa [sortByCreatedAtDescend] using insertDescend_sorted ih

/-- The sort permutes its input. -/
theorem sortByCreatedAtDescend_perm (l : List Conversation) :
    List.Perm (sortByCreatedAtDescend l) l := by
  induction l with
  | nil => exact List.Perm.refl _
  | cons c cs ih =>
    exact (perm_insertDescend c (sortByCreatedAtDescend cs)).trans (List.Perm.cons c ih)

/-- Filtering one timestamp class through a stable descending insertion. -/
theorem filter_insertDescend (c : Conversation) (k : Nat) :
    ∀ (l : List Conversation),
      (insertDescend c l).filter (fun x => x.createdAt == k) =
        if c.createdAt = k then c :: l.filter (fun x => x.createdAt == k)
        else l.filter (fun x => x.createdAt == k) := by
  intro l
  induction l with
  | nil => by_cases hk : c.createdAt = k <;> simp [insertDescend, List.filter_cons, hk]
  | cons d ds ih =>
    unfold insertDescend
    by_cases hc : d.createdAt ≤ c.createdAt
    · rw [if_pos hc]
      by_cases hk : c.createdAt = k <;> simp [List.filter_cons, hk]
    · rw [if_neg hc]
      by_cases hk : c.createdAt = k
      · have hdk : ¬ d.createdAt = k := by omega
        simp [List.filter_cons, hdk, ih, hk]
      · by_cases hdk : d.createdAt = k <;> simp [List.filter_cons, hdk, ih, hk]

/-- Stability: the sort leaves every class of equal timestamps in its original
relative order. -/
theorem sortByCreatedAtDescend_stable (l : List Conversation) (k : Nat) :
    (sortByCreatedAtDescend l).filter (fun x => x.createdAt == k) =
      l.filter (fun x => x.createdAt == k) := by
  induction l with
  | nil => simp [sortByCreatedAtDescend]
  | cons c cs ih =>
    have hrw : sortByCreatedAtDescend (c :: cs) =
        insertDescend c (sortByCreatedAtDescend cs) := rfl
    rw [hrw, filter_insertDescend]
    by_cases hk : c.createdAt = k
    · simp [hk, List.filter_cons, ih]
    · simp [hk, List.filter_cons, ih]

/-- Merged conversations and seen ids of a fulfilled-branch step. -/
theorem processFulfilled_merge (st : MergeState) (s : String) (page : BranchPage) :
    (processFulfilled st s page).conversations
      = st.conversations ++ dedupFirstById st.seenIds page.conversations ∧
    (processFulfilled st s page).seenIds = seenAfter st.seenIds page.conversations := by
  unfold processFulfilled
  rw [foldl_pushIfUnseen_spec]
  exact ⟨rfl, rfl⟩

/-- A returned multi-status result is the sorted merged list truncated to the
effective limit. -/
theorem multiStatus_ok_shape (settled : List (String × Settled BranchPage)) (limit : Nat)
    (convs : List Conversation) (pag : MergedPagination)
    (h : multiStatusSearchMerge settled limit = .ok (convs, pag)) :
    ∃ st, processSettled .init settled = .ok st ∧
      convs = (sortByCreatedAtDescend st.conversations).take
        (if limit = 0 then 50 else limit) := by
  unfold multiStatusSearchMerge at h
  cases hps : processSettled .init settled with
  | error e => rw [hps] at h; cases h
  | ok st =>
    rw [hps] at h
    cases h
    refine ⟨st, rfl, ?_⟩
    generalize (if limit = 0 then 50 else limit) = eff
    split
    · rfl
    · rw [List.take_of_length_le (Nat.le_of_not_lt (by omega))]

/-- C1: for per-status branch results and a requested limit, the multi-status
reconciliation in `searchConversations` merges the branches in the canonical
order active, pending, closed, appending a conversation only when its id was
not already added; sorts the merged sequence by `createdAt` descending with a
stable sort (equal-timestamp classes keep merge order); applies the limit only
after merge and sort; and the returned list has no duplicate ids, is
non-increasing in creation time, and never exceeds the limit. -/
theorem multiStatus_merge_dedup_sort_limit (a p c : BranchPage) (limit : Nat)
    (hl : 0 < limit) (convs : List Conversation) (pag : MergedPagination)
    (h : multiStatusSearchMerge
      [("active", .fulfilled a), ("pending", .fulfilled p), ("closed", .fulfilled c)]
      limit = .ok (convs, pag)) :
    convs = (sortByCreatedAtDescend (dedupFirstById []
        (a.conversations ++ p.conversations ++ c.conversations))).take limit ∧
    (convs.map (fun x => x.id)).Nodup ∧
    convs.Pairwise (fun x y => y.createdAt ≤ x.createdAt) ∧
    convs.length ≤ limit ∧
    ∀ k, (sortByCreatedAtDescend (dedupFirstById []
        (a.conversations ++ p.conversations ++ c.conversations))).filter
          (fun x => x.createdAt == k) =
      (dedupFirstById [] (a.conversations ++ p.conversations ++ c.conversations)).filter
          (fun x => x.createdAt == k) := by
  obtain ⟨st, hps, hconvs⟩ := multiStatus_ok_shape _ _ _ _ h
  have hred : processSettled MergeState.init
      [("active", Settled.fulfilled a), ("pending", Settled.fulfilled p),
       ("closed", Settled.fulfilled c)] =
      .ok (processFulfilled (processFulfilled (processFulfilled MergeState.init "active" a)
        "pending" p) "closed" c) := rfl
  have hst : st = processFulfilled (processFulfilled (processFulfilled MergeState.init
      "active" a) "pending" p) "closed" c :=
    (Except.ok.inj (hred.symm.trans hps)).symm
  have hm1 := processFulfilled_merge MergeState.init "active" a
  have hm2 := processFulfilled_merge (processFulfilled MergeState.init "active" a) "pending" p
  have hm3 := processFulfilled_merge (processFulfilled (processFulfilled MergeState.init
    "active" a) "pending" p) "closed" c
  have hD : st.conversations =
      dedupFirstById [] (a.conversations ++ p.conversations ++ c.conversations) := by
    rw [hst, hm3.1, hm2.1, hm1.1, hm2.2, hm1.2]
    show [] ++ dedupFirstById [] a.conversations ++
        dedupFirstById (seenAfter [] a.conversations) p.conversations ++
        dedupFirstById (seenAfter (seenAfter [] a.conversations) p.conversations)
          c.conversations = _
    rw [List.nil_append, ← seenAfter_append, ← dedupFirstById_append,
      ← dedupFirstById_append]
  rw [if_neg (by omega : ¬ limit = 0)] at hconvs
  rw [hD] at hconvs
  set D := dedupFirstById [] (a.conversations ++ p.conversations ++ c.conversations)
    with hDdef
  have hndD : ((D.map (fun x => x.id)).Nodup) := (dedupFirstById_ids_nodup _ _).1
  have hsorted := sortByCreatedAtDescend_sorted D
  have hperm := sortByCreatedAtDescend_perm D
  refine ⟨hconvs, ?_, ?_, ?_, fun k => sortByCreatedAtDescend_stable D k⟩
  · rw [hconvs, List.map_take]
    exact List.Nodup.sublist (List.take_sublist _ _)
      ((hperm.map (fun x => x.id)).nodup_iff.mpr hndD)
  · rw [hconvs]
    exact List.Pairwise.sublist (List.take_sublist _ _) hsorted
  · rw [hconvs, List.length_take]
    omega

/-- C1 witness: the reconciliation theorem applied at a concrete input — two
fulfilled branches sharing a conversation id, limit 2. -/
theorem multiStatus_merge_dedup_sort_limit_witness :
    ([⟨3, 200⟩, ⟨1, 100⟩] : List Conversation) =
      (sortByCreatedAtDescend (dedupFirstById []
        (([⟨1, 100⟩, ⟨2, 50⟩] : List Conversation) ++ [] ++
          [⟨2, 50⟩, ⟨3, 200⟩]))).take 2 ∧
    (([⟨3, 200⟩, ⟨1, 100⟩] : List Conversation).map (fun x => x.id)).Nodup ∧
    ([⟨3, 200⟩, ⟨1, 100⟩] : List Conversation).Pairwise
      (fun x y => y.createdAt ≤ x.createdAt) ∧
    ([⟨3, 200⟩, ⟨1, 100⟩] : List Conversation).length ≤ 2 := by
  have h : multiStatusSearchMerge
      [("active", .fulfilled ⟨some 10, [⟨1, 100⟩, ⟨2, 50⟩]⟩),
       ("pending", .fulfilled ⟨none, []⟩),
       ("closed", .fulfilled ⟨some 5, [⟨2, 50⟩, ⟨3, 200⟩]⟩)] 2 =
      .ok ([⟨3, 200⟩, ⟨1, 100⟩],
        ⟨2, some 15, some [("active", 10), ("pending", 0), ("closed", 5)], none,
          "Merged results from 3 statuses. Returned 2 of 15 total conversations."⟩) := by
    decide
  have t := multiStatus_merge_dedup_sort_limit ⟨some 10, [⟨1, 100⟩, ⟨2, 50⟩]⟩
    ⟨none, []⟩ ⟨some 5, [⟨2, 50⟩, ⟨3, 200⟩]⟩ 2 (by decide) _ _ h
  exact ⟨t.1, t.2.1, t.2.2.1, t.2.2.2.1⟩

/-- Accounting fields accumulated by the merge loop: successful branches
contribute their reported totals, non-fatal failures are recorded in order. -/
theorem processSettled_accounting :
    ∀ (l : List (String × Settled BranchPage)) (st0 st : MergeState),
      processSettled st0 l = .ok st →
      st.totalAvailable = st0.totalAvailable + successTotalSum l ∧
      st.failedStatuses = st0.failedStatuses ++ nonFatalFailures l ∧
      st.totalByStatus = st0.totalByStatus ++ fulfilledTotals l := by
  intro l
  induction l with
  | nil =>
    intro st0 st h
    cases h
    simp [successTotalSum, nonFatalFailures, fulfilledTotals]
  | cons pr rest ih =>
    obtain ⟨status, exc⟩ := pr
    intro st0 st h
    cases exc with
    | fulfilled page =>
      simp only [processSettled] at h
      obtain ⟨h1, h2, h3⟩ := ih _ st h
      have hb := foldl_pushIfUnseen_bookkeeping page.conversations
        { st0 with
          totalByStatus := st0.totalByStatus ++ [(status, page.totalElements.getD 0)],
          totalAvailable := st0.totalAvailable + page.totalElements.getD 0 }
      unfold processFulfilled at h1 h2 h3
      refine ⟨?_, ?_, ?_⟩
      · rw [h1, hb.2.1]; simp [successTotalSum]; omega
      · rw [h2, hb.1]; simp [nonFatalFailures]
      · rw [h3, hb.2.2]; simp [fulfilledTotals]
    | rejected reason =>
      simp only [processSettled] at h
      unfold processRejected at h
      by_cases hapi : isApiError reason
      · by_cases hcode :
            (reason.codeOf == "UNAUTHORIZED" || reason.codeOf == "INVALID_INPUT") = true
        · rw [if_neg (by simp [hapi]), if_pos hcode] at h; cases h
        · rw [if_neg (by simp [hapi]), if_neg hcode] at h
          obtain ⟨h1, h2, h3⟩ := ih _ st h
          refine ⟨?_, ?_, ?_⟩
          · rw [h1]; simp [successTotalSum]
          · rw [h2]
            simp only [nonFatalFailures, hapi, hcode]
            simp
          · rw [h3]; simp [fulfilledTotals]
      · rw [if_pos (by simp [hapi])] at h; cases h

/-- A non-empty failure list makes the note end with the partial-totals
warning. -/
theorem mergedNote_ends_with_suffix (failed : List BranchFailure)
    (hne : failed ≠ []) (a b c : Nat) :
    ∃ s, mergedNote failed a b c = s ++ totalsSuffix := by
  refine ⟨"[WARNING] " ++ toString failed.length ++
    " status(es) failed - results incomplete! Failed: " ++ failedListText failed, ?_⟩
  unfold mergedNote
  rw [if_pos (by simpa [List.length_pos] using hne)]

/-- C2: when some branches fail non-fatally, the reported `availableTotal` is
the sum of the successful branches' API totals only, every failed branch is
listed with status, message and code, and the note states that totals reflect
only the successful statuses. -/
theorem multiStatus_partial_failure_accounting
    (settled : List (String × Settled BranchPage)) (limit : Nat)
    (convs : List Conversation) (pag : MergedPagination)
    (h : multiStatusSearchMerge settled limit = .ok (convs, pag)) :
    (fulfilledTotals settled ≠ [] → pag.totalAvailable = some (successTotalSum settled)) ∧
    (fulfilledTotals settled = [] → pag.totalAvailable = none) ∧
    pag.errors = (if nonFatalFailures settled = [] then none
                  else some (nonFatalFailures settled)) ∧
    (nonFatalFailures settled ≠ [] → ∃ s, pag.note = s ++ totalsSuffix) := by
  unfold multiStatusSearchMerge at h
  cases hps : processSettled .init settled with
  | error e => rw [hps] at h; cases h
  | ok st =>
    rw [hps] at h
    obtain ⟨h1, h2, h3⟩ := processSettled_accounting settled _ st hps
    simp only [MergeState.init, List.nil_append, Nat.zero_add] at h1 h2 h3
    cases h
    refine ⟨?_, ?_, ?_, ?_⟩
    · intro hne
      simp only [h3, h1]
      rw [if_pos (by simpa [List.length_pos] using hne)]
    · intro hnil
      simp only [h3, hnil]
      simp
    · simp only [h2]
      by_cases hnil : nonFatalFailures settled = []
      · simp [hnil]
      · rw [if_neg hnil, if_pos (by simpa [List.length_pos] using hnil)]
    · intro hne
      rw [h2]
      exact mergedNote_ends_with_suffix _ hne _ _ _

/-- C2 witness: active and closed succeed with totals 10 and 5, pending fails
rate-limited; `availableTotal` is 15 and pending is the only failed status. -/
theorem multiStatus_partial_failure_accounting_witness :
    (⟨2, some 15, some [("active", 10), ("closed", 5)],
        some [⟨"pending", "Rate limit exceeded", "RATE_LIMIT"⟩],
        mergedNote [⟨"pending", "Rate limit exceeded", "RATE_LIMIT"⟩] 2 15 2⟩ :
      MergedPagination).totalAvailable = some 15 ∧
    (⟨2, some 15, some [("active", 10), ("closed", 5)],
        some [⟨"pending", "Rate limit exceeded", "RATE_LIMIT"⟩],
        mergedNote [⟨"pending", "Rate limit exceeded", "RATE_LIMIT"⟩] 2 15 2⟩ :
      MergedPagination).errors =
      some [⟨"pending", "Rate limit exceeded", "RATE_LIMIT"⟩] := by
  have h : multiStatusSearchMerge
      [("active", .fulfilled ⟨some 10, [⟨1, 100⟩, ⟨2, 50⟩]⟩),
       ("pending", .rejected (.apiError "RATE_LIMIT" "Rate limit exceeded")),
       ("closed", .fulfilled ⟨some 5, [⟨2, 50⟩, ⟨3, 200⟩]⟩)] 2 =
      .ok ([⟨3, 200⟩, ⟨1, 100⟩],
        ⟨2, some 15, some [("active", 10), ("closed", 5)],
          some [⟨"pending", "Rate limit exceeded", "RATE_LIMIT"⟩],
          mergedNote [⟨"pending", "Rate limit exceeded", "RATE_LIMIT"⟩] 2 15 2⟩) := by
    decide
  have hc := multiStatus_partial_failure_accounting _ 2 _ _ h
  constructor
  · rw [hc.1 (by decide)]
    decide
  · rw [hc.2.2.1]
    decide

/-- C3: during multi-status aggregation a branch error that is not a
recognized API error, or is classified UNAUTHORIZED or INVALID_INPUT, aborts
the whole operation by propagating the error; a RATE_LIMIT, UPSTREAM_ERROR or
NOT_FOUND API error is non-fatal — the branch is recorded in `failedStatuses`
with status, message and code, nothing is merged from it, and processing
continues with the remaining branches. -/
theorem multiStatus_branch_error_policy (st : MergeState) (status msg code : String)
    (rest : List (String × Settled BranchPage)) :
    (processSettled st ((status, .rejected (.other msg)) :: rest) = .error (.other msg)) ∧
    (code = "UNAUTHORIZED" ∨ code = "INVALID_INPUT" →
      processSettled st ((status, .rejected (.apiError code msg)) :: rest) =
        .error (.apiError code msg)) ∧
    (code = "RATE_LIMIT" ∨ code = "UPSTREAM_ERROR" ∨ code = "NOT_FOUND" →
      processSettled st ((status, .rejected (.apiError code msg)) :: rest) =
        processSettled
          { st with failedStatuses := st.failedStatuses ++ [⟨status, msg, code⟩] } rest) := by
  refine ⟨?_, ?_, ?_⟩
  · simp [processSettled, processRejected, isApiError]
  · rintro (h | h) <;> subst h <;>
      simp [processSettled, processRejected, isApiError, SettleReason.codeOf]
  · rintro (h | h | h) <;> subst h <;>
      simp [processSettled, processRejected, isApiError, SettleReason.codeOf,
        SettleReason.messageOf]

/-- C3 witness: the policy applied to a non-API error, an UNAUTHORIZED error,
and a rate-limit error at concrete inputs. -/
theorem multiStatus_branch_error_policy_witness :
    (processSettled MergeState.init
        [("active", (.rejected (.other "boom") : Settled BranchPage))] =
      .error (.other "boom")) ∧
    (processSettled MergeState.init
        [("active", (.rejected (.apiError "UNAUTHORIZED" "bad token") : Settled BranchPage))] =
      .error (.apiError "UNAUTHORIZED" "bad token")) ∧
    (processSettled MergeState.init
        [("pending", (.rejected (.apiError "RATE_LIMIT" "slow down") : Settled BranchPage))] =
      processSettled
        { MergeState.init with failedStatuses :=
            MergeState.init.failedStatuses ++ [⟨"pending", "slow down", "RATE_LIMIT"⟩] } []) :=
  ⟨(multiStatus_branch_error_policy MergeState.init "active" "boom" "X" []).1,
   (multiStatus_branch_error_policy MergeState.init "active" "bad token" "UNAUTHORIZED" []).2.1
     (Or.inl rfl),
   (multiStatus_branch_error_policy MergeState.init "pending" "slow down" "RATE_LIMIT" []).2.2
     (Or.inl rfl)⟩

/-- C4: whenever `executeMultiStatusSearch` returns a result, the collection
handed to result formatting has exactly one terminal outcome per requested
status, in request order — the fetched result for a fulfilled branch and the
recorded zero-record failure entry for a non-fatally failed branch — so a
non-fatal failure never causes later branches to be skipped and
reconciliation never sees a partial set of branches. -/
theorem executeMultiStatusSearch_one_outcome_per_status (q : String) :
    ∀ (outcomes : List (String × Except SettleReason StatusSearchResult))
      (hstat : ∀ pr ∈ outcomes, ∀ v, pr.2 = Except.ok v → v.status = pr.1)
      (rs : List StatusSearchResult),
      executeMultiStatusSearch q outcomes = .ok rs →
      rs.map (fun r => r.status) = outcomes.map (fun pr => pr.1) ∧
      List.Forall₂ (fun pr r =>
        (∀ v, pr.2 = Except.ok v → r = v) ∧
        (∀ e, pr.2 = Except.error e → r = emptyFailureEntry pr.1 q)) outcomes rs := by
  intro outcomes
  induction outcomes with
  | nil =>
    intro hstat rs h
    simp only [executeMultiStatusSearch] at h
    cases h
    exact ⟨rfl, List.Forall₂.nil⟩
  | cons pr rest ih =>
    obtain ⟨status, exc⟩ := pr
    intro hstat rs h
    cases exc with
    | ok v =>
      simp only [executeMultiStatusSearch] at h
      cases hrest : executeMultiStatusSearch q rest with
      | error e => rw [hrest] at h; cases h
      | ok rs' =>
        rw [hrest] at h
        cases h
        obtain ⟨hmap, hall⟩ := ih (fun a ha => hstat a (List.mem_cons_of_mem _ ha)) rs' hrest
        refine ⟨?_, ?_⟩
        · simp only [List.map_cons, hmap]
          have := hstat (status, Except.ok v) (List.mem_cons_self _ _) v rfl
          simp [this]
        · exact List.Forall₂.cons
            ⟨(fun w hw => Except.ok.inj hw), (fun e he => nomatch he)⟩ hall
    | error reason =>
      simp only [executeMultiStatusSearch] at h
      by_cases hapi : isApiError reason
      · by_cases hcode :
            (reason.codeOf == "UNAUTHORIZED" || reason.codeOf == "INVALID_INPUT") = true
        · rw [if_neg (by simp [hapi]), if_pos hcode] at h; cases h
        · rw [if_neg (by simp [hapi]), if_neg hcode] at h
          cases hrest : executeMultiStatusSearch q rest with
          | error e => rw [hrest] at h; cases h
          | ok rs' =>
            rw [hrest] at h
            cases h
            obtain ⟨hmap, hall⟩ := ih (fun a ha => hstat a (List.mem_cons_of_mem _ ha))
              rs' hrest
            refine ⟨?_, ?_⟩
            · simp [hmap, emptyFailureEntry]
            · exact List.Forall₂.cons
                ⟨(fun w hw => nomatch hw), (fun e he => rfl)⟩ hall
      · rw [if_pos (by simp [hapi])] at h; cases h

/-- C4 witness: a rate-limited pending branch between two fulfilled branches
still yields one terminal entry per status, in order. -/
theorem executeMultiStatusSearch_one_outcome_per_status_witness :
    ([⟨"active", 10, none, [], "billing", false⟩,
      emptyFailureEntry "pending" "billing",
      ⟨"closed", 5, none, [], "billing", false⟩] :
        List StatusSearchResult).map (fun r => r.status) =
      ["active", "pending", "closed"] := by
  have h : executeMultiStatusSearch "billing"
      [("active", .ok ⟨"active", 10, none, [], "billing", false⟩),
       ("pending", .error (.apiError "RATE_LIMIT" "slow")),
       ("closed", .ok ⟨"closed", 5, none, [], "billing", false⟩)] =
      .ok [⟨"active", 10, none, [], "billing", false⟩,
        emptyFailureEntry "pending" "billing",
        ⟨"closed", 5, none, [], "billing", false⟩] := by decide
  have hstat : ∀ pr ∈ ([("active", .ok ⟨"active", 10, none, [], "billing", false⟩),
      ("pending", .error (.apiError "RATE_LIMIT" "slow")),
      ("closed", .ok ⟨"closed", 5, none, [], "billing", false⟩)] :
        List (String × Except SettleReason StatusSearchResult)),
      ∀ v, pr.2 = Except.ok v → v.status = pr.1 := by
    intro pr hpr v hv
    simp only [List.mem_cons, List.not_mem_nil, or_false] at hpr
    rcases hpr with rfl | rfl | rfl
    · cases hv; rfl
    · cases hv
    · cases hv; rfl
  exact ((executeMultiStatusSearch_one_outcome_per_status "billing" _ hstat _ h).1).trans
    (by decide)

/-- C5 counterexample: in the claim's own scenario (API total 20, 3 of 8
fetched records removed by the createdBefore filter) the rebuilt pagination
reports `totalAvailable` = 20, the pre-filter API total — not availability
after client-side filtering (neither 20 - 3 nor the post-filter count 5). -/
theorem createdBefore_availableTotal_pre_filter_counterexample :
    singleStatusCreatedBeforeStep
      [⟨1, 10⟩, ⟨2, 20⟩, ⟨3, 30⟩, ⟨4, 40⟩, ⟨5, 50⟩, ⟨6, 100⟩, ⟨7, 150⟩, ⟨8, 200⟩]
      100 (some ⟨some 20⟩) =
      ([⟨1, 10⟩, ⟨2, 20⟩, ⟨3, 30⟩, ⟨4, 40⟩, ⟨5, 50⟩],
       .rebuilt 5 (some 20)
         "Results filtered client-side by createdBefore. totalResults shows filtered count (5), totalAvailable shows pre-filter API total (20).") ∧
    (applyCreatedBeforeFilter
      [⟨1, 10⟩, ⟨2, 20⟩, ⟨3, 30⟩, ⟨4, 40⟩, ⟨5, 50⟩, ⟨6, 100⟩, ⟨7, 150⟩, ⟨8, 200⟩]
      100).removedCount = 3 ∧
    (some 20 : Option Nat) ≠ some (20 - 3) ∧
    (some 20 : Option Nat) ≠ some 5 := by
  refine ⟨by decide, by decide, by decide, by decide⟩

/-- C5 (amended): when the client-side createdBefore filter removed at least
one record, the result reports the post-filter count (`totalResults`) and the
pre-filter API total (`totalAvailable`) together, with a note naming both —
never silently replacing one with the other — and `totalAvailable` continues
to reflect the pre-filter API-reported availability; the filtered set is
exactly the conversations created strictly before the cutoff, and the counts
reconcile. -/
theorem createdBefore_filter_reporting (convs : List Conversation) (cutoff : Nat)
    (apiPage : Option ApiPage)
    (hf : (applyCreatedBeforeFilter convs cutoff).wasFiltered = true) :
    singleStatusCreatedBeforeStep convs cutoff apiPage =
      ((applyCreatedBeforeFilter convs cutoff).filtered,
        .rebuilt (applyCreatedBeforeFilter convs cutoff).filtered.length
          (apiPage.bind (fun pg => pg.totalElements))
          ("Results filtered client-side by createdBefore. totalResults shows filtered count (" ++
            toString (applyCreatedBeforeFilter convs cutoff).filtered.length ++
            "), totalAvailable shows pre-filter API total (" ++
            optionTotalText (apiPage.bind (fun pg => pg.totalElements)) ++ ").")) ∧
    (applyCreatedBeforeFilter convs cutoff).filtered =
      convs.filter (fun x => x.createdAt < cutoff) ∧
    (applyCreatedBeforeFilter convs cutoff).filtered.length +
      (applyCreatedBeforeFilter convs cutoff).removedCount = convs.length ∧
    0 < (applyCreatedBeforeFilter convs cutoff).removedCount := by
  have hlen : (convs.filter (fun x => x.createdAt < cutoff)).length ≤ convs.length :=
    List.length_filter_le _ _
  have hrc : (applyCreatedBeforeFilter convs cutoff).removedCount =
      convs.length - (convs.filter (fun x => x.createdAt < cutoff)).length := rfl
  have hpos : 0 < (applyCreatedBeforeFilter convs cutoff).removedCount := by
    have hwf := hf
    unfold applyCreatedBeforeFilter at hwf
    simp only [decide_eq_true_eq] at hwf
    rw [hrc]
    exact hwf
  refine ⟨?_, rfl, ?_, hpos⟩
  · unfold singleStatusCreatedBeforeStep
    rw [if_pos hf]
    unfold buildFilteredPagination
    simp
  · rw [hrc]
    have hfe : (applyCreatedBeforeFilter convs cutoff).filtered =
        convs.filter (fun x => x.createdAt < cutoff) := rfl
    rw [hfe]
    omega

/-- C5 witness: the reporting theorem at the claim's scenario — cutoff 100
removes 3 of 8 records, API total 20. -/
theorem createdBefore_filter_reporting_witness :
    singleStatusCreatedBeforeStep
      [⟨1, 10⟩, ⟨2, 20⟩, ⟨3, 30⟩, ⟨4, 40⟩, ⟨5, 50⟩, ⟨6, 100⟩, ⟨7, 150⟩, ⟨8, 200⟩]
      100 (some ⟨some 25⟩) =
      ([⟨1, 10⟩, ⟨2, 20⟩, ⟨3, 30⟩, ⟨4, 40⟩, ⟨5, 50⟩],
       .rebuilt 5 (some 25)
         "Results filtered client-side by createdBefore. totalResults shows filtered count (5), totalAvailable shows pre-filter API total (25).") := by
  have t := createdBefore_filter_reporting
    [⟨1, 10⟩, ⟨2, 20⟩, ⟨3, 30⟩, ⟨4, 40⟩, ⟨5, 50⟩, ⟨6, 100⟩, ⟨7, 150⟩, ⟨8, 200⟩]
    100 (some ⟨some 25⟩) (by decide)
  exact t.1.trans (by decide)

/-- The extraction fold equals the enumerated claim-side characterization. -/
theorem extractGo_spec :
    ∀ (ps : List Piece) (n : Nat),
      extractGo n ps = (((retainedTags ps).enumFrom n).map imageOfEnum, specText n ps) := by
  intro ps
  induction ps with
  | nil => intro n; simp [extractGo, retainedTags, specText]
  | cons pc ps ih =>
    intro n
    cases pc with
    | text s =>
      simp only [extractGo, retainedTags, List.filterMap_cons, specText, ih]
    | img t =>
      have hcond : (t.width == some "1" && t.height == some "1") = isPixelTag t := rfl
      unfold extractGo
      rw [hcond]
      by_cases hp : isPixelTag t
      · rw [if_pos hp, ih]
        have hr : retainedTags (Piece.img t :: ps) = retainedTags ps := by
          simp [retainedTags, List.filterMap_cons, hp]
        have hs : specText n (Piece.img t :: ps) = specText n ps := by
          simp [specText, hp]
        rw [hr, hs]
      · rw [if_neg hp]
        simp only []
        rw [ih]
        have hr : retainedTags (Piece.img t :: ps) = t :: retainedTags ps := by
          simp [retainedTags, List.filterMap_cons, hp]
        have hs : specText n (Piece.img t :: ps) =
            imgPlaceholder (n + 1) t.alt ++ specText (n + 1) ps := by
          simp [specText, hp]
        rw [hr, hs]
        simp [List.enumFrom_cons, imageOfEnum]

/-- Enumerated indices shifted by one form the range starting at `n + 1`. -/
theorem enumFrom_indices_succ {α : Type} :
    ∀ (l : List α) (n : Nat),
      (l.enumFrom n).map (fun e => e.1 + 1) = List.range' (n + 1) l.length := by
  intro l
  induction l with
  | nil => intro n; simp [List.range']
  | cons a l ih => intro n; simp [List.enumFrom_cons, List.range', ih]

/-- Every retained tag is a non-pixel tag. -/
theorem retainedTags_not_pixel (pieces : List Piece) :
    ∀ t ∈ retainedTags pieces, isPixelTag t = false := by
  intro t ht
  obtain ⟨pc, hpc, hf⟩ := List.mem_filterMap.mp ht
  cases pc with
  | text s => cases hf
  | img t' =>
    by_cases hp : isPixelTag t'
    · simp [hp] at hf
    · simp [hp] at hf
      rw [← hf]
      simpa using hp

/-- C6: inline-image extraction deletes 1×1 tracking pixels entirely (no
index, no list entry, no placeholder), assigns retained images the sequential
1-based indices in document order, marks `isFetchable` by the http(s) scheme
test of `src`, and replaces each retained image by `[Image N: alt]` for a
non-empty alt and `[Image N]` otherwise — as captured by the enumerated
claim-side image list and text. -/
theorem extractInlineImages_spec (pieces : List Piece) :
    extractInlineImages pieces = (specImages pieces, specText 0 pieces) ∧
    (∀ im ∈ specImages pieces, ¬(im.width = some "1" ∧ im.height = some "1")) ∧
    (specImages pieces).map (fun im => im.index) =
      List.range' 1 (retainedTags pieces).length ∧
    (∀ im ∈ specImages pieces, im.isFetchable = srcFetchable im.src) := by
  refine ⟨extractGo_spec pieces 0, ?_, ?_, ?_⟩
  · intro im him
    obtain ⟨e, he, heq⟩ := List.mem_map.mp him
    have ht : e.2 ∈ retainedTags pieces := by
      have : e.2 ∈ ((retainedTags pieces).enum).map Prod.snd := List.mem_map_of_mem _ he
      simpa [List.enum_map_snd] using this
    have hnp := retainedTags_not_pixel pieces e.2 ht
    rw [← heq]
    intro hcontra
    unfold isPixelTag at hnp
    have h1 : e.2.width = some "1" := hcontra.1
    have h2 : e.2.height = some "1" := hcontra.2
    rw [h1, h2] at hnp
    simp at hnp
  · unfold specImages
    rw [List.map_map]
    have : (fun im => InlineImage.index im) ∘ imageOfEnum = fun e => e.1 + 1 := rfl
    rw [this]
    exact enumFrom_indices_succ _ 0
  · intro im him
    obtain ⟨e, he, heq⟩ := List.mem_map.mp him
    rw [← heq]
    rfl

/-- C8: on the failing input the code's `stripQuotedContent` returns the text
unchanged — its header-pair scan stops at the seventh following line — while
the claim's (and the code comment's) eight-line window commits the cut and
replaces the suffix with the removal notice. -/
theorem stripQuotedContent_eighth_line_divergence :
    stripQuotedContent headerPairEighthLineInput = headerPairEighthLineInput ∧
    stripQuotedContentSpec8 headerPairEighthLineInput =
      "Intro text\n\n[Quoted/forwarded content removed - 189 chars]" ∧
    stripQuotedContentSpec8 headerPairEighthLineInput ≠
      stripQuotedContent headerPairEighthLineInput := by
  refine ⟨by decide, by decide, by decide⟩

theorem splitNl_cons (c : Char) (cs : List Char) :
    splitNl (c :: cs) = if c = '\n' then [] :: splitNl cs
      else match splitNl cs with | [] => [[c]] | l :: ls => (c :: l) :: ls := rfl

theorem splitNl_cons_nl (cs : List Char) : splitNl ('\n' :: cs) = [] :: splitNl cs := by
  rw [splitNl_cons, if_pos rfl]

theorem splitNl_ne_nil : ∀ cs, splitNl cs ≠ [] := by
  intro cs
  cases cs with
  | nil => simp [splitNl]
  | cons c cs =>
    rw [splitNl_cons]
    by_cases hc : c = '\n'
    · simp [hc]
    · rw [if_neg hc]
      cases splitNl cs <;> simp

theorem splitNl_shape (cs : List Char) : ∃ l ls, splitNl cs = l :: ls := by
  cases h : splitNl cs with
  | nil => exact absurd h (splitNl_ne_nil cs)
  | cons l ls => exact ⟨l, ls, rfl⟩

theorem splitNl_cons_not_nl (c : Char) (cs : List Char) (hc : c ≠ '\n')
    (l : List Char) (ls : List (List Char)) (h : splitNl cs = l :: ls) :
    splitNl (c :: cs) = (c :: l) :: ls := by
  rw [splitNl_cons, if_neg hc, h]

theorem splitNl_append (a b : List Char) :
    splitNl (a ++ '\n' :: b) = splitNl a ++ splitNl b := by
  induction a with
  | nil =>
    rw [List.nil_append, splitNl_cons_nl]
    rfl
  | cons c a ih =>
    by_cases hc : c = '\n'
    · subst hc
      rw [List.cons_append, splitNl_cons_nl, splitNl_cons_nl, ih, List.cons_append]
    · obtain ⟨l, ls, ha⟩ := splitNl_shape a
      have hab : splitNl (a ++ '\n' :: b) = (l :: ls) ++ splitNl b := by rw [ih, ha]
      rw [List.cons_append,
        splitNl_cons_not_nl c _ hc l (ls ++ splitNl b) (by simpa using hab),
        splitNl_cons_not_nl c a hc l ls ha, List.cons_append]

theorem noNl_splitNl : ∀ cs, ∀ l ∈ splitNl cs, '\n' ∉ l := by
  intro cs
  induction cs with
  | nil => intro l hl; simp [splitNl] at hl; simp [hl]
  | cons c cs ih =>
    intro l hl
    by_cases hc : c = '\n'
    · subst hc
      rw [splitNl_cons_nl] at hl
      rcases List.mem_cons.mp hl with rfl | hl
      · simp
      · exact ih l hl
    · obtain ⟨m, ms, ha⟩ := splitNl_shape cs
      rw [splitNl_cons_not_nl c cs hc m ms ha] at hl
      rw [ha] at ih
      rcases List.mem_cons.mp hl with rfl | hl
      · intro hmem
        rcases List.mem_cons.mp hmem with h | h
        · exact hc h.symm
        · exact ih m (List.mem_cons_self _ _) h
      · exact ih l (List.mem_cons_of_mem _ hl)

theorem joinNl_splitNl : ∀ cs, joinNl (splitNl cs) = cs := by
  intro cs
  induction cs with
  | nil => simp [splitNl, joinNl]
  | cons c cs ih =>
    obtain ⟨l, ls, ha⟩ := splitNl_shape cs
    by_cases hc : c = '\n'
    · subst hc
      rw [splitNl_cons_nl, ha]
      show [] ++ '\n' :: joinNl (l :: ls) = '\n' :: cs
      rw [← ha, ih]
      rfl
    · rw [splitNl_cons_not_nl c cs hc l ls ha]
      rw [ha] at ih
      cases ls with
      | nil =>
        show c :: l = c :: cs
        rw [show joinNl [l] = l from rfl] at ih
        rw [ih]
      | cons m ms =>
        show (c :: l) ++ '\n' :: joinNl (m :: ms) = c :: cs
        have hj : joinNl (l :: m :: ms) = l ++ '\n' :: joinNl (m :: ms) := rfl
        rw [hj] at ih
        simp [← ih]

theorem splitNl_of_noNl (cs : List Char) (h : '\n' ∉ cs) : splitNl cs = [cs] := by
  induction cs with
  | nil => rfl
  | cons c cs ih =>
    have hc : c ≠ '\n' := by intro hcc; exact h (hcc ▸ List.mem_cons_self _ _)
    exact splitNl_cons_not_nl c cs hc cs []
      (ih (fun hm => h (List.mem_cons_of_mem _ hm)))

theorem splitNl_joinNl : ∀ ls, ls ≠ [] → (∀ l ∈ ls, '\n' ∉ l) →
    splitNl (joinNl ls) = ls := by
  intro ls
  induction ls with
  | nil => intro h; exact absurd rfl h
  | cons l ls ih =>
    intro _ hno
    cases ls with
    | nil =>
      show splitNl (joinNl [l]) = [l]
      rw [show joinNl [l] = l from rfl]
      exact splitNl_of_noNl l (hno l (List.mem_cons_self _ _))
    | cons m ms =>
      show splitNl (l ++ '\n' :: joinNl (m :: ms)) = l :: m :: ms
      rw [splitNl_append, splitNl_of_noNl l (hno l (List.mem_cons_self _ _))]
      rw [ih (by simp) (fun x hx => hno x (List.mem_cons_of_mem _ hx))]
      rfl

theorem dropWhile_append_all {p : Char → Bool} {a : List Char} (b : List Char)
    (h : ∀ c ∈ a, p c = true) :
    List.dropWhile p (a ++ b) = List.dropWhile p b := by
  induction a with
  | nil => rfl
  | cons c a ih =>
    rw [List.cons_append, List.dropWhile_cons]
    rw [h c (List.mem_cons_self _ _)]
    simp only [if_pos]
    exact ih (fun x hx => h x (List.mem_cons_of_mem _ hx))

theorem dropWhile_append_stop {p : Char → Bool} {a : List Char} (b : List Char)
    (h : List.dropWhile p a ≠ []) :
    List.dropWhile p (a ++ b) = List.dropWhile p a ++ b := by
  induction a with
  | nil => exact absurd rfl h
  | cons c a ih =>
    by_cases hc : p c = true
    · rw [List.cons_append, List.dropWhile_cons, if_pos hc, List.dropWhile_cons, if_pos hc]
      exact ih (by rwa [List.dropWhile_cons, if_pos hc] at h)
    · rw [List.cons_append, List.dropWhile_cons, if_neg hc, List.dropWhile_cons, if_neg hc]
      rfl

theorem ltrim_eq_nil_iff {l : List Char} :
    ltrimChars l = [] ↔ ∀ c ∈ l, jsWhitespace c = true := by
  unfold ltrimChars
  exact List.dropWhile_eq_nil_iff

theorem rtrim_eq_nil_iff {l : List Char} :
    rtrimChars l = [] ↔ ∀ c ∈ l, jsWhitespace c = true := by
  unfold rtrimChars
  rw [List.reverse_eq_nil_iff, List.dropWhile_eq_nil_iff]
  constructor
  · intro h c hc; exact h c (List.mem_reverse.mpr hc)
  · intro h c hc; exact h c (List.mem_reverse.mp hc)

theorem rtrim_cons (c : Char) (cs : List Char) :
    rtrimChars (c :: cs) =
      if rtrimChars cs = [] then (if jsWhitespace c then [] else [c])
      else c :: rtrimChars cs := by
  by_cases hnil : rtrimChars cs = []
  · rw [if_pos hnil]
    have hall : ∀ x ∈ cs.reverse, jsWhitespace x = true := by
      intro x hx
      exact (rtrim_eq_nil_iff.mp hnil) x (List.mem_reverse.mp hx)
    unfold rtrimChars
    rw [show (c :: cs).reverse = cs.reverse ++ [c] from by simp]
    rw [dropWhile_append_all [c] hall]
    by_cases hc : jsWhitespace c
    · simp [List.dropWhile_cons, hc]
    · simp [List.dropWhile_cons, hc]
  · rw [if_neg hnil]
    have hstop : List.dropWhile jsWhitespace cs.reverse ≠ [] := by
      intro hcon
      exact hnil (by unfold rtrimChars; rw [hcon]; rfl)
    unfold rtrimChars
    rw [show (c :: cs).reverse = cs.reverse ++ [c] from by simp]
    rw [dropWhile_append_stop [c] hstop]
    simp

theorem ltrim_cons_ws {c : Char} (cs : List Char) (hc : jsWhitespace c = true) :
    ltrimChars (c :: cs) = ltrimChars cs := by
  unfold ltrimChars
  rw [List.dropWhile_cons, if_pos hc]

theorem ltrim_cons_not_ws {c : Char} (cs : List Char) (hc : ¬ jsWhitespace c = true) :
    ltrimChars (c :: cs) = c :: cs := by
  unfold ltrimChars
  rw [List.dropWhile_cons, if_neg hc]

theorem rtrim_nil : rtrimChars [] = [] := rfl

theorem rtrim_singleton_not_ws {c : Char} (hc : ¬ jsWhitespace c = true) :
    rtrimChars [c] = [c] := by
  rw [rtrim_cons, if_pos rtrim_nil, if_neg hc]

theorem ltrim_rtrim_comm : ∀ (x : List Char),
    ltrimChars (rtrimChars x) = rtrimChars (ltrimChars x) := by
  intro x
  induction x with
  | nil => rfl
  | cons c cs ih =>
    rw [rtrim_cons]
    by_cases hc : jsWhitespace c
    · rw [ltrim_cons_ws cs hc]
      by_cases hnil : rtrimChars cs = []
      · rw [if_pos hnil, if_pos hc]
        show ([] : List Char) = rtrimChars (ltrimChars cs)
        rw [← ih, hnil]
        rfl
      · rw [if_neg hnil]
        rw [ltrim_cons_ws _ hc, ih]
    · rw [ltrim_cons_not_ws cs hc]
      by_cases hnil : rtrimChars cs = []
      · rw [if_pos hnil, if_neg hc]
        rw [show ltrimChars [c] = [c] from ltrim_cons_not_ws [] hc]
        rw [rtrim_cons, if_pos hnil, if_neg hc]
      · rw [if_neg hnil, ltrim_cons_not_ws _ hc, rtrim_cons, if_neg hnil]

theorem ltrim_idem (x : List Char) : ltrimChars (ltrimChars x) = ltrimChars x := by
  induction x with
  | nil => rfl
  | cons c cs ih =>
    by_cases hc : jsWhitespace c
    · rw [ltrim_cons_ws cs hc, ih]
    · rw [ltrim_cons_not_ws cs hc, ltrim_cons_not_ws cs hc]

theorem rtrim_idem (x : List Char) : rtrimChars (rtrimChars x) = rtrimChars x := by
  induction x with
  | nil => rfl
  | cons c cs ih =>
    rw [rtrim_cons]
    by_cases hnil : rtrimChars cs = []
    · rw [if_pos hnil]
      by_cases hc : jsWhitespace c
      · rw [if_pos hc]; rfl
      · rw [if_neg hc]
        exact rtrim_singleton_not_ws hc
    · rw [if_neg hnil, rtrim_cons, ih, if_neg hnil]

theorem jsTrim_ltrim (x : List Char) : jsTrim (ltrimChars x) = jsTrim x := by
  unfold jsTrim
  rw [ltrim_idem]

theorem jsTrim_rtrim (x : List Char) : jsTrim (rtrimChars x) = jsTrim x := by
  unfold jsTrim
  rw [← ltrim_rtrim_comm, ← ltrim_rtrim_comm, rtrim_idem]

theorem noNl_ltrim {l : List Char} (h : '\n' ∉ l) : '\n' ∉ ltrimChars l := by
  intro hm
  exact h ((List.dropWhile_sublist _).mem hm)

theorem splitNl_ltrim_joinNl : ∀ ls, ls ≠ [] → (∀ l ∈ ls, '\n' ∉ l) →
    splitNl (ltrimChars (joinNl ls)) = dropLeftLines ls := by
  intro ls
  induction ls with
  | nil => intro h; exact absurd rfl h
  | cons l ls ih =>
    intro _ hno
    cases ls with
    | nil =>
      show splitNl (ltrimChars (joinNl [l])) = [ltrimChars l]
      rw [show joinNl [l] = l from rfl]
      exact splitNl_of_noNl _ (noNl_ltrim (hno l (List.mem_cons_self _ _)))
    | cons m ms =>
      have hJ : joinNl (l :: m :: ms) = l ++ '\n' :: joinNl (m :: ms) := rfl
      rw [hJ]
      by_cases hnil : ltrimChars l = []
      · have hall : ∀ c ∈ l, jsWhitespace c = true := ltrim_eq_nil_iff.mp hnil
        have hlt : ltrimChars (l ++ '\n' :: joinNl (m :: ms)) =
            ltrimChars (joinNl (m :: ms)) := by
          unfold ltrimChars
          rw [dropWhile_append_all _ hall, List.dropWhile_cons,
            if_pos (by decide : jsWhitespace '\n' = true)]
        rw [hlt, ih (by simp) (fun x hx => hno x (List.mem_cons_of_mem _ hx))]
        show dropLeftLines (m :: ms) = dropLeftLines (l :: m :: ms)
        rw [show dropLeftLines (l :: m :: ms) =
          if ltrimChars l = [] then dropLeftLines (m :: ms)
          else ltrimChars l :: m :: ms from rfl, if_pos hnil]
      · have hlt : ltrimChars (l ++ '\n' :: joinNl (m :: ms)) =
            ltrimChars l ++ '\n' :: joinNl (m :: ms) := by
          unfold ltrimChars
          exact dropWhile_append_stop _ hnil
        rw [hlt, splitNl_append,
          splitNl_of_noNl _ (noNl_ltrim (hno l (List.mem_cons_self _ _))),
          splitNl_joinNl (m :: ms) (by simp)
            (fun x hx => hno x (List.mem_cons_of_mem _ hx))]
        rw [show dropLeftLines (l :: m :: ms) =
          if ltrimChars l = [] then dropLeftLines (m :: ms)
          else ltrimChars l :: m :: ms from rfl, if_neg hnil]
        rfl

theorem splitNl_ltrim (w : List Char) :
    splitNl (ltrimChars w) = dropLeftLines (splitNl w) := by
  have h := splitNl_ltrim_joinNl (splitNl w) (splitNl_ne_nil w) (noNl_splitNl w)
  rwa [joinNl_splitNl] at h

theorem joinNl_append_singleton : ∀ (A : List (List Char)) (x : List Char), A ≠ [] →
    joinNl (A ++ [x]) = joinNl A ++ '\n' :: x := by
  intro A
  induction A with
  | nil => intro x h; exact absurd rfl h
  | cons a A ih =>
    intro x _
    cases A with
    | nil => rfl
    | cons b B =>
      show joinNl (a :: (b :: B ++ [x])) = (a ++ '\n' :: joinNl (b :: B)) ++ '\n' :: x
      have h1 : joinNl (a :: (b :: B ++ [x])) = a ++ '\n' :: joinNl (b :: B ++ [x]) := by
        cases B <;> rfl
      rw [h1, ih x (by simp)]
      simp

theorem revLines_ne_nil {ls : List (List Char)} (h : ls ≠ []) : revLines ls ≠ [] := by
  unfold revLines
  simp [h]

theorem joinNl_revLines : ∀ ls, joinNl (revLines ls) = (joinNl ls).reverse := by
  intro ls
  induction ls with
  | nil => rfl
  | cons l ls ih =>
    cases ls with
    | nil => rfl
    | cons m ms =>
      have h1 : revLines (l :: m :: ms) = revLines (m :: ms) ++ [l.reverse] := by
        unfold revLines
        simp
      rw [h1, joinNl_append_singleton _ _ (revLines_ne_nil (by simp)), ih]
      show (joinNl (m :: ms)).reverse ++ '\n' :: l.reverse =
        (l ++ '\n' :: joinNl (m :: ms)).reverse
      simp

theorem noNl_revLines {ls : List (List Char)} (h : ∀ l ∈ ls, '\n' ∉ l) :
    ∀ l ∈ revLines ls, '\n' ∉ l := by
  intro l hl
  unfold revLines at hl
  obtain ⟨m, hm, hrev⟩ := List.mem_map.mp (List.mem_reverse.mp hl)
  intro hc
  exact h m hm (by rw [← hrev] at hc; simpa using hc)

theorem splitNl_reverse (u : List Char) :
    splitNl u.reverse = revLines (splitNl u) := by
  have h := splitNl_joinNl (revLines (splitNl u))
    (revLines_ne_nil (splitNl_ne_nil u)) (noNl_revLines (noNl_splitNl u))
  rw [joinNl_revLines, joinNl_splitNl] at h
  exact h

theorem splitNl_rtrim (w : List Char) :
    splitNl (rtrimChars w) = dropRightLines (splitNl w) := by
  have hr : rtrimChars w = (ltrimChars w.reverse).reverse := rfl
  rw [hr, splitNl_reverse, splitNl_ltrim, splitNl_reverse]
  rfl

theorem splitNl_jsTrim (w : List Char) :
    splitNl (jsTrim w) = dropRightLines (dropLeftLines (splitNl w)) := by
  unfold jsTrim
  rw [splitNl_rtrim, splitNl_ltrim]

theorem lineCut_eq (l : List Char) (ls : List (List Char)) :
    lineCut l ls = (forwardMarkerPat (jsTrim l) || beginForwardedPat (jsTrim l) ||
      onWrotePat (jsTrim l) || amSchriebPat (jsTrim l) || leEcritPat (jsTrim l) ||
      (headerFieldPat (jsTrim l) && dateWindow ls)) := rfl

theorem dateWindow_take {ls : List (List Char)} {n : Nat}
    (h : dateWindow (ls.take n) = true) : dateWindow ls = true := by
  unfold dateWindow at *
  obtain ⟨x, hx, hpx⟩ := List.any_eq_true.mp h
  refine List.any_eq_true.mpr ⟨x, ?_, hpx⟩
  have h1 : List.take 7 (List.take n ls) = List.take (min 7 n) ls := List.take_take 7 n ls
  have h2 : List.take (min 7 n) ls = List.take (min 7 n) (List.take 7 ls) := by
    rw [List.take_take]
    congr 1
    omega
  rw [h1, h2] at hx
  exact List.take_subset _ _ hx

theorem dateWindow_append_false {ls es : List (List Char)}
    (h : dateWindow ls = false) (hes : ∀ e ∈ es, dateFieldPat (jsTrim e) = false) :
    dateWindow (ls ++ es) = false := by
  unfold dateWindow at *
  rw [List.any_eq_false]
  intro x hx
  rw [List.take_append_eq_append_take] at hx
  rcases List.mem_append.mp hx with hx | hx
  · exact (List.any_eq_false.mp h) x hx
  · simp [hes x (List.take_subset _ _ hx)]

theorem any_dateField_congr : ∀ {u v : List (List Char)},
    List.Forall₂ (fun a b => jsTrim a = jsTrim b) u v →
    u.any (fun m => dateFieldPat (jsTrim m)) = v.any (fun m => dateFieldPat (jsTrim m)) := by
  intro u v h
  induction h with
  | nil => rfl
  | cons h1 h2 ih =>
    simp only [List.any_cons, h1, ih]

theorem dateWindow_congr {u v : List (List Char)}
    (h : List.Forall₂ (fun a b => jsTrim a = jsTrim b) u v) :
    dateWindow u = dateWindow v := by
  unfold dateWindow
  exact any_dateField_congr (List.forall₂_take 7 h)

theorem lineCut_congr {l l' : List Char} {ls ls' : List (List Char)}
    (hl : jsTrim l = jsTrim l')
    (hls : List.Forall₂ (fun a b => jsTrim a = jsTrim b) ls ls') :
    lineCut l ls = lineCut l' ls' := by
  rw [lineCut_eq, lineCut_eq, hl, dateWindow_congr hls]

theorem lineCut_false_mono {l : List Char} {ls ls2 : List (List Char)}
    (h : lineCut l ls = false)
    (hmono : dateWindow ls2 = true → dateWindow ls = true) :
    lineCut l ls2 = false := by
  rw [lineCut_eq] at h ⊢
  cases hdw : dateWindow ls2 with
  | true =>
    rw [hmono hdw] at h
    exact h
  | false =>
    rw [Bool.and_false, Bool.or_false]
    cases hdl : dateWindow ls with
    | true => rw [hdl, Bool.and_true] at h; exact (Bool.or_eq_false_iff.mp h).1
    | false => rw [hdl, Bool.and_false, Bool.or_false] at h; exact h

theorem lineCut_false_take {l : List Char} {ls : List (List Char)} {n : Nat}
    (h : lineCut l ls = false) : lineCut l (ls.take n) = false :=
  lineCut_false_mono h dateWindow_take

theorem lineCut_false_append {l : List Char} {ls es : List (List Char)}
    (h : lineCut l ls = false) (hes : ∀ e ∈ es, dateFieldPat (jsTrim e) = false) :
    lineCut l (ls ++ es) = false := by
  refine lineCut_false_mono h (fun htrue => ?_)
  cases hdl : dateWindow ls with
  | true => rfl
  | false =>
    rw [dateWindow_append_false hdl hes] at htrue
    exact absurd htrue (by simp)

theorem findCut_cons (l : List Char) (ls : List (List Char)) :
    findCut (l :: ls) =
      if lineCut l ls then some 0 else (findCut ls).map (· + 1) := rfl

theorem findCut_cons_none {l : List Char} {ls : List (List Char)} :
    findCut (l :: ls) = none ↔ lineCut l ls = false ∧ findCut ls = none := by
  rw [findCut_cons]
  by_cases hc : lineCut l ls
  · simp [hc]
  · simp [hc]

theorem findCut_none_take {ls : List (List Char)} (h : findCut ls = none) :
    ∀ n, findCut (ls.take n) = none := by
  induction ls with
  | nil => intro n; simp [List.take_nil]; rfl
  | cons l ls ih =>
    intro n
    obtain ⟨hl, hrest⟩ := findCut_cons_none.mp h
    cases n with
    | zero => rfl
    | succ n =>
      rw [List.take_succ_cons]
      exact findCut_cons_none.mpr ⟨lineCut_false_take hl, ih hrest n⟩

theorem findCut_none_append {ls es : List (List Char)}
    (h : findCut ls = none) (hes : findCut es = none)
    (hdate : ∀ e ∈ es, dateFieldPat (jsTrim e) = false) :
    findCut (ls ++ es) = none := by
  induction ls with
  | nil => exact hes
  | cons l ls ih =>
    obtain ⟨hl, hrest⟩ := findCut_cons_none.mp h
    exact findCut_cons_none.mpr ⟨lineCut_false_append hl hdate, ih hrest⟩

theorem findCut_none_congr : ∀ {ls ls' : List (List Char)},
    List.Forall₂ (fun a b => jsTrim a = jsTrim b) ls ls' →
    findCut ls = none → findCut ls' = none := by
  intro ls ls' h
  induction h with
  | nil => exact id
  | cons h1 h2 ih =>
    intro hn
    obtain ⟨hl, hrest⟩ := findCut_cons_none.mp hn
    exact findCut_cons_none.mpr ⟨(lineCut_congr h1 h2).symm.trans hl, ih hrest⟩

theorem forall₂_trimEq_refl (ls : List (List Char)) :
    List.Forall₂ (fun a b => jsTrim a = jsTrim b) ls ls :=
  List.forall₂_same.mpr (fun _ _ => rfl)

theorem findCut_none_dropLeftLines : ∀ (ls : List (List Char)),
    findCut ls = none → findCut (dropLeftLines ls) = none := by
  intro ls
  induction ls with
  | nil => intro h; exact h
  | cons l ls ih =>
    intro h
    obtain ⟨hl, hrest⟩ := findCut_cons_none.mp h
    cases ls with
    | nil =>
      show findCut [ltrimChars l] = none
      refine findCut_cons_none.mpr ⟨?_, rfl⟩
      exact (lineCut_congr (jsTrim_ltrim l) List.Forall₂.nil).trans hl
    | cons m ms =>
      show findCut (if ltrimChars l = [] then dropLeftLines (m :: ms)
        else ltrimChars l :: m :: ms) = none
      by_cases hnil : ltrimChars l = []
      · rw [if_pos hnil]
        exact ih hrest
      · rw [if_neg hnil]
        exact findCut_cons_none.mpr
          ⟨(lineCut_congr (jsTrim_ltrim l) (forall₂_trimEq_refl _)).trans hl, hrest⟩

theorem revLines_cons (x : List Char) (A : List (List Char)) :
    revLines (x :: A) = revLines A ++ [x.reverse] := by
  unfold revLines
  simp

theorem revLines_revLines (ls : List (List Char)) : revLines (revLines ls) = ls := by
  unfold revLines
  simp [List.map_reverse, Function.comp]

theorem ltrim_reverse_eq_nil_iff {l : List Char} :
    ltrimChars l.reverse = [] ↔ rtrimChars l = [] := by
  constructor
  · intro h
    rw [rtrim_eq_nil_iff]
    intro c hc
    exact (ltrim_eq_nil_iff.mp h) c (List.mem_reverse.mpr hc)
  · intro h
    rw [ltrim_eq_nil_iff]
    intro c hc
    exact (rtrim_eq_nil_iff.mp h) c (List.mem_reverse.mp hc)

theorem dropRightLines_nil : dropRightLines [] = [] := rfl

theorem dropRightLines_concat (ls : List (List Char)) (l : List Char) :
    dropRightLines (ls ++ [l]) =
      if rtrimChars l = [] ∧ ls ≠ [] then dropRightLines ls
      else ls ++ [rtrimChars l] := by
  unfold dropRightLines
  have h1 : revLines (ls ++ [l]) = l.reverse :: revLines ls := by
    unfold revLines
    simp
  rw [h1]
  cases hrl : revLines ls with
  | nil =>
    have hls : ls = [] := by
      have := congrArg revLines hrl
      rwa [revLines_revLines] at this
    subst hls
    rw [if_neg (by simp)]
    show revLines [ltrimChars l.reverse] = [rtrimChars l]
    unfold revLines
    simp [rtrimChars, ltrimChars]
  | cons a A =>
    have hne : ls ≠ [] := by
      intro hcon
      subst hcon
      simp [revLines] at hrl
    show revLines (dropLeftLines (l.reverse :: a :: A)) = _
    by_cases hnil : ltrimChars l.reverse = []
    · rw [show dropLeftLines (l.reverse :: a :: A) =
        if ltrimChars l.reverse = [] then dropLeftLines (a :: A)
        else ltrimChars l.reverse :: a :: A from rfl, if_pos hnil]
      rw [if_pos ⟨ltrim_reverse_eq_nil_iff.mp hnil, hne⟩, ← hrl]
    · rw [show dropLeftLines (l.reverse :: a :: A) =
        if ltrimChars l.reverse = [] then dropLeftLines (a :: A)
        else ltrimChars l.reverse :: a :: A from rfl, if_neg hnil]
      rw [if_neg (fun hcon => hnil (ltrim_reverse_eq_nil_iff.mpr hcon.1))]
      rw [revLines_cons, ← hrl, revLines_revLines]
      congr 1

theorem findCut_none_dropRightLines (ls : List (List Char))
    (h : findCut ls = none) : findCut (dropRightLines ls) = none := by
  induction ls using List.reverseRecOn with
  | nil => exact h
  | append_singleton ls l ih =>
    rw [dropRightLines_concat]
    by_cases hc : rtrimChars l = [] ∧ ls ≠ []
    · rw [if_pos hc]
      have hpre : findCut ls = none := by
        have := findCut_none_take h ls.length
        rwa [List.take_left] at this
      exact ih hpre
    · rw [if_neg hc]
      refine findCut_none_congr ?_ h
      exact List.rel_append (forall₂_trimEq_refl ls)
        (List.Forall₂.cons (jsTrim_rtrim l).symm List.Forall₂.nil)

theorem forwardMarkerPat_bracket (ys : List Char) :
    forwardMarkerPat ('[' :: ys) = false := rfl

theorem beginForwardedPat_bracket (ys : List Char) :
    beginForwardedPat ('[' :: ys) = false := rfl

theorem onWrotePat_bracket (ys : List Char) : onWrotePat ('[' :: ys) = false := rfl

theorem amSchriebPat_bracket (ys : List Char) : amSchriebPat ('[' :: ys) = false := rfl

theorem leEcritPat_bracket (ys : List Char) : leEcritPat ('[' :: ys) = false := rfl

theorem headerFieldPat_bracket (ys : List Char) :
    headerFieldPat ('[' :: ys) = false := rfl

theorem dateFieldPat_bracket (ys : List Char) : dateFieldPat ('[' :: ys) = false := rfl

theorem jsTrim_bracket_head (xs : List Char) :
    ∃ ys, jsTrim ('[' :: xs) = '[' :: ys := by
  unfold jsTrim
  rw [ltrim_cons_not_ws xs (by decide), rtrim_cons]
  by_cases h : rtrimChars xs = []
  · rw [if_pos h, if_neg (by decide)]
    exact ⟨[], rfl⟩
  · rw [if_neg h]
    exact ⟨rtrimChars xs, rfl⟩

theorem lineCut_bracket_head (xs : List Char) (ls : List (List Char)) :
    lineCut ('[' :: xs) ls = false := by
  obtain ⟨ys, hy⟩ := jsTrim_bracket_head xs
  rw [lineCut_eq, hy, forwardMarkerPat_bracket, beginForwardedPat_bracket,
    onWrotePat_bracket, amSchriebPat_bracket, leEcritPat_bracket,
    headerFieldPat_bracket]
  rfl

theorem lineCut_nil_line (ls : List (List Char)) : lineCut [] ls = false := by
  rw [lineCut_eq]
  rw [show jsTrim [] = [] from rfl]
  rw [show forwardMarkerPat [] = false from rfl, show beginForwardedPat [] = false from rfl,
    show onWrotePat [] = false from rfl, show amSchriebPat [] = false from rfl,
    show leEcritPat [] = false from rfl, show headerFieldPat [] = false from rfl]
  rfl

theorem digitChar_ne_nl (n : Nat) : digitChar n ≠ '\n' := by
  unfold digitChar
  split <;> decide

theorem nl_not_mem_natCharsAux : ∀ fuel n, '\n' ∉ natCharsAux fuel n := by
  intro fuel
  induction fuel with
  | zero => intro n h; exact absurd h (List.not_mem_nil _)
  | succ fuel ih =>
    intro n
    show '\n' ∉ (if n < 10 then [digitChar n]
      else natCharsAux fuel (n / 10) ++ [digitChar (n % 10)])
    by_cases hn : n < 10
    · rw [if_pos hn]
      intro h
      exact digitChar_ne_nl n (List.mem_singleton.mp h).symm
    · rw [if_neg hn]
      intro h
      rcases List.mem_append.mp h with h | h
      · exact ih _ h
      · exact digitChar_ne_nl _ (List.mem_singleton.mp h).symm

theorem noNl_noticeChars (n : Nat) : '\n' ∉ noticeChars n := by
  intro h
  unfold noticeChars at h
  rcases List.mem_append.mp h with h | h
  · rcases List.mem_append.mp h with h | h
    · exact absurd h (by decide)
    · exact nl_not_mem_natCharsAux _ _ h
  · exact absurd h (by decide)

theorem noticeChars_head (n : Nat) : ∃ ys, noticeChars n = '[' :: ys :=
  ⟨_, rfl⟩

theorem stripQuotedContentL_cons_eq (c : Char) (cs : List Char) :
    stripQuotedContentL (c :: cs) =
      match findCut (splitNl (c :: cs)) with
      | none => c :: cs
      | some i => sqcBody c cs i := rfl

theorem stripQuotedContentL_cons_none {c : Char} {cs : List Char}
    (h : findCut (splitNl (c :: cs)) = none) :
    stripQuotedContentL (c :: cs) = c :: cs := by
  rw [stripQuotedContentL_cons_eq, h]

theorem stripQuotedContentL_cons_some {c : Char} {cs : List Char} {i : Nat}
    (h : findCut (splitNl (c :: cs)) = some i) :
    stripQuotedContentL (c :: cs) = sqcBody c cs i := by
  rw [stripQuotedContentL_cons_eq, h]

theorem findCut_some_take : ∀ {ls : List (List Char)} {i : Nat},
    findCut ls = some i → findCut (ls.take i) = none := by
  intro ls
  induction ls with
  | nil => intro i h; cases h
  | cons l ls ih =>
    intro i h
    rw [findCut_cons] at h
    by_cases hc : lineCut l ls = true
    · rw [if_pos hc] at h
      cases h
      rfl
    · have hcf : lineCut l ls = false := by
        cases hcv : lineCut l ls with
        | true => exact absurd hcv hc
        | false => rfl
      rw [if_neg hc] at h
      cases hf : findCut ls with
      | none => rw [hf] at h; cases h
      | some j =>
        rw [hf, Option.map_some'] at h
        cases h
        rw [List.take_succ_cons]
        exact findCut_cons_none.mpr ⟨lineCut_false_take hcf, ih hf⟩

theorem stripQuotedContentL_committed_fixed (kept : List Char) (n : Nat)
    (hnone : findCut (splitNl kept) = none) :
    stripQuotedContentL (kept ++ '\n' :: '\n' :: noticeChars n) =
      kept ++ '\n' :: '\n' :: noticeChars n := by
  have hfc : findCut (splitNl (kept ++ '\n' :: '\n' :: noticeChars n)) = none := by
    rw [show kept ++ '\n' :: '\n' :: noticeChars n =
      kept ++ '\n' :: ('\n' :: noticeChars n) from rfl]
    rw [splitNl_append, splitNl_cons_nl, splitNl_of_noNl _ (noNl_noticeChars n)]
    refine findCut_none_append hnone ?_ ?_
    · refine findCut_cons_none.mpr ⟨lineCut_nil_line _, ?_⟩
      refine findCut_cons_none.mpr ⟨?_, rfl⟩
      obtain ⟨ys, hy⟩ := noticeChars_head n
      rw [hy]
      exact lineCut_bracket_head ys []
    · intro e he
      rcases List.mem_cons.mp he with he | he
      · rw [he]
        rfl
      · rw [List.mem_singleton.mp he]
        obtain ⟨ys, hy⟩ := noticeChars_head n
        rw [hy]
        obtain ⟨zs, hz⟩ := jsTrim_bracket_head ys
        rw [hz]
        exact dateFieldPat_bracket zs
  cases kept with
  | nil =>
    rw [List.nil_append] at hfc ⊢
    rw [stripQuotedContentL_cons_none hfc]
  | cons c k =>
    rw [List.cons_append] at hfc ⊢
    rw [stripQuotedContentL_cons_none hfc]

theorem stripQuotedContentL_shape (ds : List Char) :
    stripQuotedContentL ds = ds ∨
    ∃ kept n, findCut (splitNl kept) = none ∧
      stripQuotedContentL ds = kept ++ '\n' :: '\n' :: noticeChars n := by
  cases ds with
  | nil => exact Or.inl rfl
  | cons c cs =>
    cases hfc : findCut (splitNl (c :: cs)) with
    | none =>
      exact Or.inl (stripQuotedContentL_cons_none hfc)
    | some i =>
      rw [stripQuotedContentL_cons_some hfc]
      unfold sqcBody
      by_cases h10 : (jsTrim (joinNl ((splitNl (c :: cs)).take i))).length < 10
      · rw [if_pos h10]
        exact Or.inl rfl
      · rw [if_neg h10]
        by_cases h100 : (joinNl ((splitNl (c :: cs)).drop i)).length < 100
        · rw [if_pos h100]
          exact Or.inl rfl
        · rw [if_neg h100]
          right
          refine ⟨jsTrim (joinNl ((splitNl (c :: cs)).take i)),
            (joinNl ((splitNl (c :: cs)).drop i)).length, ?_, rfl⟩
          have hne : (splitNl (c :: cs)).take i ≠ [] := by
            intro hcon
            rw [hcon] at h10
            exact h10 (by decide)
          have hnoNl : ∀ l ∈ (splitNl (c :: cs)).take i, '\n' ∉ l :=
            fun l hl => noNl_splitNl _ l (List.take_subset _ _ hl)
          have hsj : splitNl (joinNl ((splitNl (c :: cs)).take i)) =
              (splitNl (c :: cs)).take i := splitNl_joinNl _ hne hnoNl
          rw [splitNl_jsTrim, hsj]
          exact findCut_none_dropRightLines _
            (findCut_none_dropLeftLines _ (findCut_some_take hfc))

theorem stripQuotedContentL_idem (cs : List Char) :
    stripQuotedContentL (stripQuotedContentL cs) = stripQuotedContentL cs := by
  rcases stripQuotedContentL_shape cs with h | ⟨kept, n, hnone, hout⟩
  · rw [h]
    exact h
  · rw [hout]
    exact stripQuotedContentL_committed_fixed kept n hnone

/-- C7 counterexample: the markup-stripping stage is not idempotent. Entity
decoding rewrites `&amp;amp;` to `&amp;` on the first pass and to `&` on the
second, so re-applying `stripHtml` to its own output changes it again. -/
theorem stripHtml_not_idempotent :
    stripHtml (stripHtml "&amp;amp;" none) none ≠ stripHtml "&amp;amp;" none := by
  decide

/-- C7 (amended): the plain-text quote-removal stage `stripQuotedContent` is
idempotent for arbitrary text, and both stages map empty input to empty
output; the markup-stripping stage `stripHtml`, however, is not idempotent
(see the counterexample). -/
theorem stripQuotedContent_idempotent_and_empty_noop (s : String) :
    stripQuotedContent (stripQuotedContent s) = stripQuotedContent s ∧
    stripQuotedContent "" = "" ∧ stripHtml "" none = "" :=
  ⟨congrArg String.mk (stripQuotedContentL_idem s.toList), by decide, by decide⟩

end HelpScout
